import Mathlib

/-!
Verification of the `cashew_set` cache-line B-tree (`src/cashew_set.h`).

The C++ structure stores, per node, an unsorted list of at most
`elt_count_max` keys plus an optional exclusively-owned array of
`elt_count_max + 1` child nodes.  We embed the structure shallowly:

* keys are `Int` (the comparator `Less` is `<`, the equality `Eq` is `=`,
  matching the `std::less` / `std::equal_to` defaults used by the tests);
* the node capacity `elt_count_max` is an explicit parameter `M`
  (for `int32_t` keys it is 13 on 64-bit and 14 on 32-bit platforms);
* a node's element buffer becomes the list of its live elements
  (`elt_count_` is its length), the `family` pointer becomes an
  `Option (List CashewSetNode)` whose list, in well-formed states, has
  exactly `M + 1` entries — unused tail slots are zero-initialized
  nodes, exactly as the C++ keeps them zero-initialized;
* in-place mutation becomes explicit state passing: functions return the
  updated node(s); `treeEltCount` is threaded through the insertion
  helpers; exceptions become `Except Err`;
* an out-of-bounds child access (undefined behaviour in C++) is
  modelled benignly by `List.getD _ _ CashewSetNode.empty`; claim C9
  establishes that under the node invariant such accesses are in bounds.
-/

namespace cashew

/-- A tree node: the live elements of `elt_buf_` (in buffer order) and the
`family` pointer (`none` models `nullptr`). Mirrors `CashewSetNode`. -/
inductive CashewSetNode : Type where
  | mk (elts : List Int) (family : Option (List CashewSetNode)) : CashewSetNode

/-- The live elements of the node (`elt(0) … elt(elt_count()-1)`). -/
def CashewSetNode.elts : CashewSetNode → List Int
  | .mk e _ => e

/-- The `family` pointer: `none` models `nullptr`. -/
def CashewSetNode.family : CashewSetNode → Option (List CashewSetNode)
  | .mk _ f => f

/-- `elt_count()`: the number of live elements. -/
def CashewSetNode.elt_count (n : CashewSetNode) : Nat := n.elts.length

/-- A zero-initialized node, as produced by the default constructor:
no elements, `family == nullptr`. -/
def CashewSetNode.empty : CashewSetNode := .mk [] none

@[simp] theorem CashewSetNode.elts_mk (e : List Int)
    (f : Option (List CashewSetNode)) : (CashewSetNode.mk e f).elts = e := rfl

@[simp] theorem CashewSetNode.family_mk (e : List Int)
    (f : Option (List CashewSetNode)) : (CashewSetNode.mk e f).family = f := rfl

@[simp] theorem CashewSetNode.elts_empty : CashewSetNode.empty.elts = [] := rfl

@[simp] theorem CashewSetNode.family_empty :
    CashewSetNode.empty.family = (none : Option (List CashewSetNode)) := rfl

@[simp] theorem CashewSetNode.elt_count_mk (e : List Int)
    (f : Option (List CashewSetNode)) :
    (CashewSetNode.mk e f).elt_count = e.length := rfl

theorem CashewSetNode.eq_mk (n : CashewSetNode) : n = .mk n.elts n.family := by
  cases n <;> rfl

/-- The `lessCount` computation shared by `countRecursive` and `tryInsert`:
the number of elements of the node strictly less than `key`. -/
def countLess (elts : List Int) (key : Int) : Nat :=
  elts.countP (fun e => decide (e < key))

theorem sizeOf_getD_lt (ch : List CashewSetNode) (i : Nat) (elts : List Int) :
    sizeOf (ch.getD i CashewSetNode.empty) <
      sizeOf (CashewSetNode.mk elts (some ch)) := by
  have h1 : 0 < sizeOf elts := by cases elts <;> simp_arith
  have h2 : 0 < sizeOf ch := by cases ch <;> simp_arith
  by_cases h : i < ch.length
  · have hm : ch.getD i CashewSetNode.empty ∈ ch := by
      rw [List.getD_eq_getElem?_getD, List.getElem?_eq_getElem h]
      exact List.getElem_mem h
    have := List.sizeOf_lt_of_mem hm
    simp only [CashewSetNode.mk.sizeOf_spec, Option.some.sizeOf_spec]
    omega
  · rw [List.getD_eq_default _ _ (Nat.le_of_not_lt h)]
    simp only [CashewSetNode.mk.sizeOf_spec, Option.some.sizeOf_spec,
      CashewSetNode.empty]
    simp_arith
    omega

/-- `countRecursive` (`cashew_set.h:336-345`): linear scan for an equal
element (return 1), otherwise follow `family->child[lessCount]`;
a null family means not-found.  An out-of-bounds child index (undefined
behaviour in C++, excluded by the node invariant, cf. claim C9) recurses
into the empty node and hence returns 0. -/
def countRecursive (node : CashewSetNode) (key : Int) : Nat :=
  match node with
  | .mk elts fam =>
    if key ∈ elts then 1
    else
      match fam with
      | none => 0
      | some ch => countRecursive (ch.getD (countLess elts key) .empty) key
termination_by sizeOf node
decreasing_by
  exact sizeOf_getD_lt _ _ _

mutual
/-- All keys stored in the subtree rooted at a node: the node's elements
followed by the keys of every slot of its child array, tail slots
included (in well-formed states tail slots are empty). -/
def keyList (n : CashewSetNode) : List Int :=
  match n with
  | .mk elts none => elts
  | .mk elts (some ch) => elts ++ keyListFam ch
termination_by sizeOf n

/-- Keys of all nodes of a child array, in slot order. -/
def keyListFam (l : List CashewSetNode) : List Int :=
  match l with
  | [] => []
  | c :: rest => keyList c ++ keyListFam rest
termination_by sizeOf l
end

/-- The failure signals of the insertion algorithm.  The three
`cashew_set_bug` throws of `checkBugs`, and the `cashew_set_bug` of
`insertFull` on a full leaf above leaf level.  The alignment failure of
`make_family` depends on the allocator and the memory layout and is not
representable in this embedding; element construction failures cannot
occur for `Int` keys. -/
inductive Err : Type where
  | eltCountTooLarge : Err
  | nodeTooDeep : Err
  | tooDeepForChildren : Err
  | fullLeafAboveLeafLevel : Err
  deriving DecidableEq

/-- `InsStatus` (`cashew_set.h:307`). -/
inductive InsStatus : Type where
  | done : InsStatus
  | duplicateFound : InsStatus
  | familySplit : InsStatus
  deriving DecidableEq

/-- `TryInsertResult` (`cashew_set.h:308-314`): the two family pointers
plus the status. -/
structure TryInsertResult : Type where
  family0 : Option (List CashewSetNode)
  family1 : Option (List CashewSetNode)
  status : InsStatus

/-- `checkBugs` (`cashew_set.h:383-392`), with `D` the current
`treeDepth` and `M` the capacity `elt_count_max`. -/
def checkBugs (M D : Nat) (node : CashewSetNode) (nodeDepth : Nat) :
    Except Err Unit :=
  if node.elt_count > M then .error .eltCountTooLarge
  else if nodeDepth > D then .error .nodeTooDeep
  else if nodeDepth = D ∧ node.family.isSome then .error .tooDeepForChildren
  else .ok ()

/-- `make_family` (`cashew_set.h:324-332`): a fresh array of
`elt_count_max + 1` zero-initialized nodes.  The alignment check cannot
fail in this embedding (memory addresses are not modelled). -/
def make_family (M : Nat) : List CashewSetNode :=
  List.replicate (M + 1) CashewSetNode.empty

/-- The loop of `CashewSetNode::splitElts` (`cashew_set.h:222-242`):
elements of the source smaller than `p` are placed into `left` at the
positions `0, 1, …` (they are `i - j` in the C++, i.e. consecutive),
the rest into `right` at positions `0, 1, …` (`j` in the C++); the
method assumes `left` and `right` start with `elt_count == 0`, so the
writes are appends. -/
def splitEltsLoop (p : Int) : List Int → List Int → List Int →
    List Int × List Int
  | [], lacc, racc => (lacc, racc)
  | x :: rest, lacc, racc =>
    if x < p then splitEltsLoop p rest (lacc ++ [x]) racc
    else splitEltsLoop p rest lacc (racc ++ [x])

/-- `CashewSetNode::splitElts` on the node level: this node loses all of
its elements; `left`/`right` (assumed to start empty) receive the
partition.  Families are not touched. -/
def CashewSetNode.splitElts (n left right : CashewSetNode) (p : Int) :
    CashewSetNode × CashewSetNode × CashewSetNode :=
  let pr := splitEltsLoop p n.elts [] []
  (.mk [] n.family, .mk pr.1 left.family, .mk pr.2 right.family)

/-- The loop of `CashewSetNode::splitEltsInto` (`cashew_set.h:244-267`):
elements `< p` are compacted in place to the front of the source
(accumulated in `thisAcc`); the others are written into `that`'s buffer
at positions `0, 1, …` — overwriting (`that.elt(j++) = move(...)`) while
`j < that.elt_count_`, placement-constructing beyond.  `j` counts the
elements moved to `that`. -/
def splitEltsIntoLoop (p : Int) : List Int → List Int → List Int → Nat →
    List Int × List Int × Nat
  | [], thisAcc, thatArr, j => (thisAcc, thatArr, j)
  | x :: rest, thisAcc, thatArr, j =>
    if x < p then splitEltsIntoLoop p rest (thisAcc ++ [x]) thatArr j
    else if j < thatArr.length then
      splitEltsIntoLoop p rest thisAcc (thatArr.set j x) (j + 1)
    else splitEltsIntoLoop p rest thisAcc (thatArr ++ [x]) (j + 1)

/-- `CashewSetNode::splitEltsInto` on the node level.  After the loop the
C++ sets `that.elt_count_ = j` and destroys `that`'s leftover elements
beyond `j` — hence the `take`.  Families are not touched. -/
def CashewSetNode.splitEltsInto (n that : CashewSetNode) (p : Int) :
    CashewSetNode × CashewSetNode :=
  let r := splitEltsIntoLoop p n.elts [] that.elts 0
  (.mk r.1 n.family, .mk (r.2.1.take r.2.2) that.family)

/-- `addElt` (`cashew_set.h:199`): placement-construct `key` at position
`elt_count_` and increment the count — an unchecked append; the caller
must guarantee `elt_count() < elt_count_max` (claim C10). -/
def CashewSetNode.addElt (n : CashewSetNode) (key : Int) : CashewSetNode :=
  .mk (n.elts ++ [key]) n.family

/-- `shiftArray(arr + st, len)` (`cashew_set.h:379-381`) applied to a
child array: slots `st+1 … st+len` receive the old slots `st … st+len-1`
(iterating downward, each source still original); every move-assignment
of a node clears its source, so slot `st` is left as the empty node —
unless `len = 0`, in which case the loop body never runs. -/
def shiftChildren (ch : List CashewSetNode) (st len : Nat) :
    List CashewSetNode :=
  (List.range ch.length).map (fun i =>
    if i < st then ch.getD i .empty
    else if i = st then (if len = 0 then ch.getD i .empty else .empty)
    else if i ≤ st + len then ch.getD (i - 1) .empty
    else ch.getD i .empty)

/-- The source side of `move_n(ch + st, cnt, …)` (`cashew_set.h:461-466`)
on nodes: the moved-from slots `st … st+cnt-1` are left empty. -/
def emptyRegion (ch : List CashewSetNode) (st cnt : Nat) :
    List CashewSetNode :=
  (List.range ch.length).map (fun i =>
    if st ≤ i ∧ i < st + cnt then .empty else ch.getD i .empty)

/-- The `nibling` array of `insertFull` after
`move_n(node.family->child + lessCount + 1, cnt, nibling->child + 1)`:
slot `0` still zero-initialized, slots `1 … cnt` holding the adopted
larger children, the rest zero-initialized. -/
def niblingAfterMove (M : Nat) (ch : List CashewSetNode) (st cnt : Nat) :
    List CashewSetNode :=
  (List.range (M + 1)).map (fun i =>
    if 1 ≤ i ∧ i < 1 + cnt then ch.getD (st + i - 1) .empty else .empty)

mutual
/-- `tryInsert` (`cashew_set.h:397-416`), with `D` the `treeDepth` and
`cnt` the threaded `treeEltCount`.  Returns the updated node together
with the `TryInsertResult`. -/
def tryInsert (M D cnt : Nat) (node : CashewSetNode) (nodeDepth : Nat)
    (key : Int) : Except Err (Nat × CashewSetNode × TryInsertResult) :=
  match checkBugs M D node nodeDepth with
  | .error e => .error e
  | .ok () =>
    if key ∈ node.elts then .ok (cnt, node, ⟨none, none, .duplicateFound⟩)
    else if node.elt_count < M then
      insertSpacious M D cnt node nodeDepth key (countLess node.elts key)
    else
      insertFull M D cnt node nodeDepth key (countLess node.elts key)
termination_by 2 * (D + 1 - nodeDepth) + 1
decreasing_by all_goals omega

/-- `insertSpacious` (`cashew_set.h:431-459`): assumes
`node.elt_count() < elt_count_max`.  Below leaf level it recurses into
`children[lessCount]` (allocating the family first if it is null) and
propagates any non-split result unchanged; on a child split it shifts
the children right of `lessCount`, installs the two returned families
on `child[lessCount]`/`child[lessCount+1]` and splits the old child's
elements between them.  Then (split case, or leaf level) `key` is
appended to `node`'s own elements and `treeEltCount` incremented. -/
def insertSpacious (M D cnt : Nat) (node : CashewSetNode)
    (nodeDepth : Nat) (key : Int) (lessCount : Nat) :
    Except Err (Nat × CashewSetNode × TryInsertResult) :=
  if h : nodeDepth < D then
    let fam := match node.family with
      | none => make_family M
      | some ch => ch
    match tryInsert M D cnt (fam.getD lessCount .empty) (nodeDepth + 1) key
      with
    | .error e => .error e
    | .ok (cnt', c', res) =>
      let fam1 := fam.set lessCount c'
      if res.status ≠ .familySplit then
        .ok (cnt', .mk node.elts (some fam1), res)
      else
        let childCount := node.elt_count + 1
        let fam2 := shiftChildren fam1 (lessCount + 1)
          (childCount - lessCount - 1)
        let ltPre : CashewSetNode :=
          .mk (fam2.getD lessCount .empty).elts res.family0
        let gtPre : CashewSetNode :=
          .mk (fam2.getD (lessCount + 1) .empty).elts res.family1
        let p := ltPre.splitEltsInto gtPre key
        let fam3 := (fam2.set lessCount p.1).set (lessCount + 1) p.2
        .ok (cnt' + 1, (CashewSetNode.mk node.elts (some fam3)).addElt key,
          ⟨none, none, .done⟩)
  else
    .ok (cnt + 1, node.addElt key, ⟨none, none, .done⟩)
termination_by 2 * (D + 1 - nodeDepth)
decreasing_by omega

/-- `insertFull` (`cashew_set.h:481-506`): assumes
`node.elt_count() == elt_count_max`.  At leaf level the node must split:
report `familySplit` without mutating it.  Otherwise recurse; a child
split makes this node split too: a fresh `nibling` array adopts the
children right of `lessCount` (at slots `1 …`), the two families from
below go to `child[lessCount]` / `nibling[0]`, the old child's elements
are divided between those two nodes, and ownership of both arrays is
returned upward; `key` is *not* added at this level.

The final branch (`nodeDepth > D`) stands for the exception the
recursive call's own `checkBugs` would raise immediately; it is
unreachable from `tryInsert`, which has already checked
`nodeDepth ≤ D`. -/
def insertFull (M D cnt : Nat) (node : CashewSetNode) (nodeDepth : Nat)
    (key : Int) (lessCount : Nat) :
    Except Err (Nat × CashewSetNode × TryInsertResult) :=
  if nodeDepth = D then .ok (cnt, node, ⟨none, none, .familySplit⟩)
  else
    match node.family with
    | none => .error .fullLeafAboveLeafLevel
    | some ch =>
      if h : nodeDepth < D then
        match tryInsert M D cnt (ch.getD lessCount .empty) (nodeDepth + 1)
          key with
        | .error e => .error e
        | .ok (cnt', c', res) =>
          let ch1 := ch.set lessCount c'
          if res.status ≠ .familySplit then
            .ok (cnt', .mk node.elts (some ch1), res)
          else
            let childCount := node.elt_count + 1
            let moveCnt := childCount - lessCount - 1
            let nib := niblingAfterMove M ch1 (lessCount + 1) moveCnt
            let ch2 := emptyRegion ch1 (lessCount + 1) moveCnt
            let ltPre : CashewSetNode :=
              .mk (ch2.getD lessCount .empty).elts res.family0
            let gtPre : CashewSetNode :=
              .mk (nib.getD 0 .empty).elts res.family1
            let p := ltPre.splitEltsInto gtPre key
            let fam0 := ch2.set lessCount p.1
            let fam1 := nib.set 0 p.2
            .ok (cnt', .mk node.elts none,
              ⟨some fam0, some fam1, .familySplit⟩)
      else
        .error (if (ch.getD lessCount .empty).elt_count > M then
          .eltCountTooLarge else .nodeTooDeep)
termination_by 2 * (D + 1 - nodeDepth)
decreasing_by omega
end

/-- Two's-complement wraparound to the value range of `int8_t`
(`[-128, 127]`): the effect of `++` on an `int8_t` holding 127. -/
def int8_wrap (z : Int) : Int := (z + 128) % 256 - 128

/-- The `cashew_set` container: root node plus the two scalars
`treeDepth` and `treeEltCount` (`cashew_set.h:278-333`).  `treeDepth`
has the source's `depth_type = int8_t` (`cashew_set.h:293`), so it is
an `Int` whose reachable values stay in `[-128, 127]`; `treeEltCount`
is `size_type = size_t`. -/
structure cashew_set : Type where
  root : CashewSetNode
  treeDepth : Int
  treeEltCount : Nat

/-- A default-constructed `cashew_set`: empty root, depth 1, size 0. -/
def cashew_set.init : cashew_set := ⟨.empty, 1, 0⟩

/-- `clear()` (`cashew_set.h:284-288`): clear the root node, reset
`treeDepth` to 1 and `treeEltCount` to 0. -/
def cashew_set.clear (_t : cashew_set) : cashew_set := ⟨.empty, 1, 0⟩

/-- `count(key)` (`cashew_set.h:289`). -/
def cashew_set.count (t : cashew_set) (key : Int) : Nat :=
  countRecursive t.root key

/-- `size()` (`cashew_set.h:290`). -/
def cashew_set.size (t : cashew_set) : Nat := t.treeEltCount

/-- `empty()` (`cashew_set.h:291`). -/
def cashew_set.isEmpty (t : cashew_set) : Bool := t.treeEltCount == 0

/-- `insert` (`cashew_set.h:352-375`).  Returns the new tree state and
either the boolean result or the re-signalled failure; any failure first
discards the whole tree (`catch(...) { clear(); throw; }`).  In the
root-split case the two new children live inside the root's fresh family
array, so the array with both in-place updates is what the root ends up
owning.  `treeDepth++` (`cashew_set.h:368`) is `int8_t` arithmetic: at
127 it wraps to -128.

The recursion works on `t.treeDepth.toNat`: inside `tryInsert` the
`nodeDepth` argument starts at 1 and is only ever incremented under the
guard `nodeDepth < treeDepth`, so for `treeDepth ∈ [1, 127]` every
`depth_type` value that arises equals its `Nat` image and no `int8_t`
arithmetic in the recursion can wrap.  For `treeDepth ≤ 0` (the
post-overflow values), every comparison the recursion makes against
`treeDepth` — `nodeDepth > treeDepth`, `nodeDepth = treeDepth`,
`nodeDepth < treeDepth` with `nodeDepth ≥ 1` — has the same outcome
with `treeDepth.toNat = 0`, and `checkBugs` on the root already throws
`nodeTooDeep` (1 > treeDepth) exactly as the C++ does, so the `toNat`
image is observationally faithful there too. -/
def cashew_set.insert (M : Nat) (t : cashew_set) (key : Int) :
    cashew_set × Except Err Bool :=
  match tryInsert M t.treeDepth.toNat t.treeEltCount t.root 1 key with
  | .error e => (t.clear, .error e)
  | .ok (cnt', root', res) =>
    if res.status ≠ .familySplit then
      (⟨root', t.treeDepth, cnt'⟩, .ok (decide (res.status ≠ .duplicateFound)))
    else
      let fam := make_family M
      let c0a : CashewSetNode := .mk (fam.getD 0 .empty).elts res.family0
      let c1a : CashewSetNode := .mk (fam.getD 1 .empty).elts res.family1
      let s := CashewSetNode.splitElts (.mk root'.elts (some fam)) c0a c1a key
      let fam' := (fam.set 0 s.2.1).set 1 s.2.2
      let newRoot := (CashewSetNode.mk s.1.elts (some fam')).addElt key
      (⟨newRoot, int8_wrap (t.treeDepth + 1), cnt' + 1⟩, .ok true)

/-- The public operations of the container, for stating reachability and
sequence-of-operations properties. -/
inductive Op : Type where
  | ins (k : Int) : Op
  | qry (k : Int) : Op
  | clr : Op

/-- Apply one public operation to the tree state (`count` does not
modify the state). -/
def applyOp (M : Nat) (t : cashew_set) : Op → cashew_set
  | .ins k => (t.insert M k).1
  | .qry _ => t
  | .clr => t.clear

/-- Apply a sequence of public operations starting from `t`. -/
def applyOps (M : Nat) (t : cashew_set) (ops : List Op) : cashew_set :=
  ops.foldl (applyOp M) t

/-- Whether `k` was inserted at least once since the last `clear`
in the operation sequence (starting from `b` before the sequence). -/
def insertedSinceFrom (b : Bool) (ops : List Op) (k : Int) : Bool :=
  ops.foldl (fun acc op =>
    match op with
    | .ins k' => acc || decide (k' = k)
    | .qry _ => acc
    | .clr => false) b

/-- Whether `k` was inserted at least once since the last `clear`. -/
def insertedSince (ops : List Op) (k : Int) : Bool :=
  insertedSinceFrom false ops k

/-- The tree states reachable through the public operations from a
default-constructed set. -/
inductive Reachable (M : Nat) : cashew_set → Prop where
  | init : Reachable M cashew_set.init
  | ins (t : cashew_set) (k : Int) :
      Reachable M t → Reachable M (t.insert M k).1
  | clr (t : cashew_set) : Reachable M t → Reachable M t.clear

/-! ### Arithmetic of `countLess` -/

theorem countLess_le_length (elts : List Int) (key : Int) :
    countLess elts key ≤ elts.length :=
  List.countP_le_length _

theorem countLess_append (a b : List Int) (key : Int) :
    countLess (a ++ b) key = countLess a key + countLess b key :=
  List.countP_append _ _ _

theorem countLess_concat (l : List Int) (k x : Int) :
    countLess (l ++ [k]) x =
      countLess l x + (if k < x then 1 else 0) := by
  simp [countLess, List.countP_append, List.countP_singleton]

theorem countLess_mono (l : List Int) {a b : Int} (h : a ≤ b) :
    countLess l a ≤ countLess l b := by
  refine List.countP_mono_left (fun x _ hx => ?_)
  simp only [decide_eq_true_eq] at hx ⊢
  omega

theorem lt_of_countLess_lt (l : List Int) {a b : Int}
    (h : countLess l a < countLess l b) : a < b := by
  by_contra hab
  exact absurd (countLess_mono l (Int.not_lt.mp hab)) (Nat.not_le.mpr h)

theorem countLess_filter_lt (l : List Int) {x key : Int} (h : x < key) :
    countLess (l.filter (fun y => decide (y < key))) x = countLess l x := by
  unfold countLess
  rw [List.countP_filter]
  refine List.countP_congr (fun y _ => ?_)
  constructor
  · intro hy
    simp only [Bool.and_eq_true, decide_eq_true_eq] at hy ⊢
    exact hy.1
  · intro hy
    simp only [decide_eq_true_eq] at hy
    simp only [Bool.and_eq_true, decide_eq_true_eq]
    omega

theorem countLess_filter_not_lt (l : List Int) {x key : Int} (h : key < x) :
    countLess l key
      + countLess (l.filter (fun y => !decide (y < key))) x
      = countLess l x := by
  have hperm :
      (l.filter (fun y => decide (y < key))
        ++ l.filter (fun y => !decide (y < key))).Perm l :=
    List.filter_append_perm _ l
  have hx := hperm.countP_eq (fun y => decide (y < x))
  rw [List.countP_append] at hx
  have h1 : (l.filter (fun y => decide (y < key))).countP
      (fun y => decide (y < x)) = countLess l key := by
    rw [List.countP_eq_length.mpr, countLess, List.countP_eq_length_filter]
    intro a ha
    have := (List.mem_filter.mp ha).2
    simp only [decide_eq_true_eq] at this ⊢
    omega
  rw [h1] at hx
  exact hx

/-! ### Characterization of the split loops -/

theorem splitEltsLoop_eq (p : Int) (l lacc racc : List Int) :
    splitEltsLoop p l lacc racc =
      (lacc ++ l.filter (fun x => decide (x < p)),
       racc ++ l.filter (fun x => !decide (x < p))) := by
  induction l generalizing lacc racc with
  | nil => simp [splitEltsLoop]
  | cons x rest ih =>
    by_cases hx : x < p
    · simp [splitEltsLoop, hx, ih, List.filter_cons]
    · simp [splitEltsLoop, hx, ih, List.filter_cons]

theorem splitElts_eq (n left right : CashewSetNode) (p : Int) :
    CashewSetNode.splitElts n left right p =
      (.mk [] n.family,
       .mk (n.elts.filter (fun x => decide (x < p))) left.family,
       .mk (n.elts.filter (fun x => !decide (x < p))) right.family) := by
  simp [CashewSetNode.splitElts, splitEltsLoop_eq]

theorem set_eq_take_cons_drop {α : Type} (l : List α) (j : Nat) (x : α)
    (h : j < l.length) : l.set j x = l.take j ++ x :: l.drop (j + 1) := by
  induction l generalizing j with
  | nil => simp at h
  | cons a t ih =>
    cases j with
    | zero => simp
    | succ j => simp [ih _ (by simpa using h)]

theorem splitEltsIntoLoop_eq (p : Int) (l acc arr : List Int) (j : Nat)
    (hj : j ≤ arr.length) :
    splitEltsIntoLoop p l acc arr j =
      (acc ++ l.filter (fun x => decide (x < p)),
       arr.take j ++ l.filter (fun x => !decide (x < p))
         ++ arr.drop (j + (l.filter (fun x => !decide (x < p))).length),
       j + (l.filter (fun x => !decide (x < p))).length) := by
  induction l generalizing acc arr j with
  | nil =>
    simp only [splitEltsIntoLoop, List.filter_nil, List.append_nil,
      List.length_nil, Nat.add_zero]
    rw [List.take_append_drop]
  | cons x rest ih =>
    by_cases hx : x < p
    · have hf1 : (x :: rest).filter (fun y => decide (y < p)) =
          x :: rest.filter (fun y => decide (y < p)) := by
        simp [List.filter_cons, hx]
      have hf2 : (x :: rest).filter (fun y => !decide (y < p)) =
          rest.filter (fun y => !decide (y < p)) := by
        simp [List.filter_cons, hx]
      simp only [splitEltsIntoLoop, if_pos hx, hf1, hf2]
      rw [ih _ _ _ hj]
      simp
    · have hf1 : (x :: rest).filter (fun y => decide (y < p)) =
          rest.filter (fun y => decide (y < p)) := by
        simp [List.filter_cons, hx]
      have hf2 : (x :: rest).filter (fun y => !decide (y < p)) =
          x :: rest.filter (fun y => !decide (y < p)) := by
        simp [List.filter_cons, hx]
      by_cases hjlen : j < arr.length
      · simp only [splitEltsIntoLoop, if_neg hx, if_pos hjlen, hf1, hf2]
        rw [ih _ _ _ (by simp only [List.length_set]; omega),
          set_eq_take_cons_drop _ _ _ hjlen]
        have hlt : (arr.take j ++ x :: arr.drop (j + 1)) =
            (arr.take j ++ [x]) ++ arr.drop (j + 1) := by simp
        have hlen1 : (arr.take j ++ [x]).length = j + 1 := by
          simp only [List.length_append, List.length_take,
            List.length_cons, List.length_nil]
          omega
        refine Prod.ext ?_ (Prod.ext ?_ ?_)
        · simp
        · rw [hlt, List.take_left' hlen1]
          have hd : ∀ m, ((arr.take j ++ [x]) ++ arr.drop (j + 1)).drop
              (j + 1 + m) = arr.drop (j + 1 + m) := by
            intro m
            rw [show j + 1 + m = (arr.take j ++ [x]).length + m by omega,
              List.drop_append, List.drop_drop, hlen1]
          rw [hd]
          have hidx :
              j + 1 + (rest.filter (fun y => !decide (y < p))).length =
              j + ((rest.filter (fun y => !decide (y < p))).length + 1) := by
            omega
          rw [hidx]
          simp
        · simp only [List.length_cons]
          omega
      · have hje : j = arr.length := by omega
        simp only [splitEltsIntoLoop, if_neg hx, if_neg hjlen, hf1, hf2]
        rw [ih _ _ _ (by simp only [List.length_append, List.length_cons,
          List.length_nil]; omega)]
        refine Prod.ext ?_ (Prod.ext ?_ ?_)
        · simp
        · subst hje
          simp only [List.length_cons]
          rw [List.take_of_length_le (show (arr ++ [x]).length ≤
              arr.length + 1 by simp),
            List.take_of_length_le (le_refl arr.length),
            List.drop_of_length_le (show (arr ++ [x]).length ≤
              arr.length + 1 + (rest.filter
                (fun y => !decide (y < p))).length by
              simp only [List.length_append, List.length_cons,
                List.length_nil]
              omega),
            List.drop_of_length_le (show arr.length ≤ arr.length +
              ((rest.filter (fun y => !decide (y < p))).length + 1) by
              omega)]
          simp
        · simp only [List.length_cons]
          omega

/-! ### `keyList` utilities -/

@[simp] theorem keyList_mk_none (elts : List Int) :
    keyList (.mk elts none) = elts := by
  rw [keyList]

@[simp] theorem keyList_mk_some (elts : List Int)
    (ch : List CashewSetNode) :
    keyList (.mk elts (some ch)) = elts ++ keyListFam ch := by
  rw [keyList]

@[simp] theorem keyList_empty : keyList CashewSetNode.empty = [] := by
  rw [CashewSetNode.empty, keyList]

@[simp] theorem keyListFam_nil : keyListFam [] = [] := by
  rw [keyListFam]

@[simp] theorem keyListFam_cons (c : CashewSetNode)
    (rest : List CashewSetNode) :
    keyListFam (c :: rest) = keyList c ++ keyListFam rest := by
  rw [keyListFam]

theorem keyListFam_append (a b : List CashewSetNode) :
    keyListFam (a ++ b) = keyListFam a ++ keyListFam b := by
  induction a with
  | nil => simp
  | cons c rest ih => simp [ih]

@[simp] theorem keyListFam_replicate_empty (n : Nat) :
    keyListFam (List.replicate n .empty) = [] := by
  induction n with
  | zero => simp
  | succ n ih => simp [List.replicate_succ, ih]

theorem mem_keyListFam {x : Int} {l : List CashewSetNode} :
    x ∈ keyListFam l ↔
      ∃ i, i < l.length ∧ x ∈ keyList (l.getD i .empty) := by
  induction l with
  | nil => simp
  | cons c rest ih =>
    simp only [keyListFam_cons, List.mem_append, ih]
    constructor
    · rintro (hc | ⟨i, hi, hx⟩)
      · exact ⟨0, by simp, by simpa using hc⟩
      · exact ⟨i + 1, by simpa using hi, by simpa using hx⟩
    · rintro ⟨i, hi, hx⟩
      cases i with
      | zero => exact Or.inl (by simpa using hx)
      | succ i =>
        exact Or.inr ⟨i, by simpa using hi, by simpa using hx⟩

theorem getD_append_left {α : Type} (a b : List α) (i : Nat) (d : α)
    (h : i < a.length) : (a ++ b).getD i d = a.getD i d := by
  simp [List.getElem?_append_left h]

theorem getD_append_right {α : Type} (a b : List α) (i : Nat) (d : α)
    (h : a.length ≤ i) : (a ++ b).getD i d = b.getD (i - a.length) d := by
  simp [List.getElem?_append_right h]

theorem getD_replicate {α : Type} (n i : Nat) (d x : α) (h : i < n) :
    (List.replicate n x).getD i d = x := by
  simp [List.getElem?_replicate, h]

theorem getD_set_self {α : Type} (l : List α) (i : Nat) (a d : α)
    (h : i < l.length) : (l.set i a).getD i d = a := by
  simp [List.getElem?_set_self h]

theorem getD_set_ne {α : Type} (l : List α) (i j : Nat) (a d : α)
    (h : i ≠ j) : (l.set i a).getD j d = l.getD j d := by
  simp [List.getElem?_set_ne h]

/-! ### Structural forms of the child-array operations -/

theorem shiftChildren_zero (ch : List CashewSetNode) (st : Nat) :
    shiftChildren ch st 0 = ch := by
  unfold shiftChildren
  apply List.ext_getElem?
  intro i
  simp only [List.getElem?_map]
  by_cases hi : i < ch.length
  · rw [List.getElem?_range hi, Option.map_some',
      List.getElem?_eq_getElem hi]
    have hgd : ch.getD i .empty = ch[i] := by
      simp [List.getElem?_eq_getElem hi]
    rcases Nat.lt_trichotomy i st with h | h | h
    · rw [if_pos h, hgd]
    · rw [if_neg (by omega), if_pos h, if_true, hgd]
    · rw [if_neg (by omega), if_neg (by omega), if_neg (by omega), hgd]
  · rw [List.getElem?_eq_none (by simpa using Nat.le_of_not_lt hi),
      Option.map_none', List.getElem?_eq_none (Nat.le_of_not_lt hi)]

theorem shiftChildren_pos (ch : List CashewSetNode) (st len : Nat)
    (hlen : 0 < len) (hst : st + len < ch.length) :
    shiftChildren ch st len =
      ((ch.take st ++ [CashewSetNode.empty]) ++ (ch.drop st).take len)
        ++ ch.drop (st + len + 1) := by
  unfold shiftChildren
  apply List.ext_getElem?
  intro i
  simp only [List.getElem?_map]
  have hhd : ∀ j (hj : j < ch.length), ch.getD j .empty = ch[j] := by
    intro j hj
    simp [List.getElem?_eq_getElem hj]
  have htake : (ch.take st).length = st := by
    simp only [List.length_take]
    omega
  have hA : (ch.take st ++ [CashewSetNode.empty]).length = st + 1 := by
    simp only [List.length_append, List.length_cons, List.length_nil,
      htake]
  have hmid : ((ch.drop st).take len).length = len := by
    simp only [List.length_take, List.length_drop]
    omega
  have hAB : ((ch.take st ++ [CashewSetNode.empty])
      ++ (ch.drop st).take len).length = st + 1 + len := by
    simp only [List.length_append, hA, hmid]
  by_cases hi : i < ch.length
  · rw [List.getElem?_range hi, Option.map_some']
    rcases Nat.lt_trichotomy i st with h | h | h
    · rw [if_pos h, List.getElem?_append_left (by omega),
        List.getElem?_append_left (by omega),
        List.getElem?_append_left (by omega),
        List.getElem?_take_of_lt h, hhd i hi,
        List.getElem?_eq_getElem hi]
    · subst h
      rw [if_neg (by omega), if_pos rfl, if_neg (by omega),
        List.getElem?_append_left (by omega),
        List.getElem?_append_left (by omega),
        List.getElem?_append_right (by omega), htake]
      simp
    · by_cases h2 : i ≤ st + len
      · rw [if_neg (by omega), if_neg (by omega), if_pos h2]
        rw [List.getElem?_append_left (show i <
            ((ch.take st ++ [CashewSetNode.empty])
              ++ (ch.drop st).take len).length by rw [hAB]; omega)]
        rw [List.getElem?_append_right (show
            (ch.take st ++ [CashewSetNode.empty]).length ≤ i by
            rw [hA]; omega), hA]
        rw [List.getElem?_take_of_lt (by omega), List.getElem?_drop]
        have hidx : st + (i - (st + 1)) = i - 1 := by omega
        rw [hidx, hhd (i - 1) (by omega),
          List.getElem?_eq_getElem (show i - 1 < ch.length by omega)]
      · rw [if_neg (by omega), if_neg (by omega), if_neg h2]
        rw [List.getElem?_append_right (show
            ((ch.take st ++ [CashewSetNode.empty])
              ++ (ch.drop st).take len).length ≤ i by
            rw [hAB]; omega), hAB]
        rw [List.getElem?_drop]
        have hidx : st + len + 1 + (i - (st + 1 + len)) = i := by omega
        rw [hidx, hhd i hi, List.getElem?_eq_getElem hi]
  · rw [List.getElem?_eq_none (by simpa using Nat.le_of_not_lt hi),
      Option.map_none', List.getElem?_eq_none]
    simp only [List.length_append, hAB, List.length_drop]
    omega

theorem emptyRegion_eq (ch : List CashewSetNode) (st cnt : Nat)
    (h : st + cnt ≤ ch.length) :
    emptyRegion ch st cnt =
      ch.take st ++ List.replicate cnt .empty ++ ch.drop (st + cnt) := by
  unfold emptyRegion
  apply List.ext_getElem?
  intro i
  simp only [List.getElem?_map]
  have hhd : ∀ j (hj : j < ch.length), ch.getD j .empty = ch[j] := by
    intro j hj
    simp [List.getElem?_eq_getElem hj]
  have htake : (ch.take st).length = st := by
    simp only [List.length_take]
    omega
  by_cases hi : i < ch.length
  · rw [List.getElem?_range hi, Option.map_some']
    by_cases h1 : i < st
    · rw [if_neg (by omega), List.getElem?_append_left
        (by simp only [List.length_append, htake,
          List.length_replicate]; omega),
        List.getElem?_append_left (by omega),
        List.getElem?_take_of_lt h1, hhd i hi,
        List.getElem?_eq_getElem hi]
    · by_cases h2 : i < st + cnt
      · rw [if_pos ⟨by omega, h2⟩, List.getElem?_append_left
          (by simp only [List.length_append, htake,
            List.length_replicate]; omega),
          List.getElem?_append_right (by omega), htake]
        simp only [List.getElem?_replicate]
        rw [if_pos (by omega)]
      · have hAR : (ch.take st ++ List.replicate cnt
            CashewSetNode.empty).length = st + cnt := by
          simp only [List.length_append, htake, List.length_replicate]
        rw [if_neg (by omega), List.getElem?_append_right
          (by rw [hAR]; omega), hAR, List.getElem?_drop]
        have hidx : st + cnt + (i - (st + cnt)) = i := by omega
        rw [hidx, hhd i hi, List.getElem?_eq_getElem hi]
  · rw [List.getElem?_eq_none (by simpa using Nat.le_of_not_lt hi),
      Option.map_none', List.getElem?_eq_none]
    simp only [List.length_append, htake, List.length_replicate,
      List.length_drop]
    omega

theorem niblingAfterMove_eq (M : Nat) (ch : List CashewSetNode)
    (st cnt : Nat) (h : st + cnt ≤ ch.length) (hcnt : cnt ≤ M) :
    niblingAfterMove M ch st cnt =
      .empty :: ((ch.drop st).take cnt)
        ++ List.replicate (M - cnt) .empty := by
  unfold niblingAfterMove
  apply List.ext_getElem?
  intro i
  simp only [List.getElem?_map]
  have hhd : ∀ j (hj : j < ch.length), ch.getD j .empty = ch[j] := by
    intro j hj
    simp [List.getElem?_eq_getElem hj]
  have hdlen : ((ch.drop st).take cnt).length = cnt := by
    simp only [List.length_take, List.length_drop]
    omega
  by_cases hi : i < M + 1
  · rw [List.getElem?_range hi, Option.map_some']
    rcases eq_or_ne i 0 with h0 | h0
    · subst h0
      rw [if_neg (by omega)]
      simp
    · have hAlen : (CashewSetNode.empty ::
          (ch.drop st).take cnt).length = 1 + cnt := by
        simp only [List.length_cons, hdlen]
        omega
      by_cases h2 : i < 1 + cnt
      · rw [if_pos ⟨by omega, h2⟩,
          List.getElem?_append_left (by rw [hAlen]; omega),
          List.getElem?_cons, if_neg h0,
          List.getElem?_take_of_lt (by omega), List.getElem?_drop]
        have hidx : st + i - 1 = st + (i - 1) := by omega
        rw [hidx, hhd (st + (i - 1)) (by omega),
          List.getElem?_eq_getElem
            (show st + (i - 1) < ch.length by omega)]
      · rw [if_neg (by omega),
          List.getElem?_append_right (by rw [hAlen]; omega), hAlen]
        simp only [List.getElem?_replicate]
        rw [if_pos (by omega)]
  · rw [List.getElem?_eq_none (by simpa using Nat.le_of_not_lt hi),
      Option.map_none', List.getElem?_eq_none]
    simp only [List.length_cons, List.length_append,
      List.length_replicate, hdlen]
    omega

theorem make_family_set01 (M : Nat) (c0 c1 : CashewSetNode)
    (hM : 1 ≤ M) :
    ((make_family M).set 0 c0).set 1 c1 =
      c0 :: c1 :: List.replicate (M - 1) .empty := by
  unfold make_family
  have : M + 1 = 1 + (1 + (M - 1)) := by omega
  rw [this, List.replicate_add, List.replicate_add]
  simp

theorem splitEltsInto_eq (n that : CashewSetNode) (p : Int) :
    n.splitEltsInto that p =
      (.mk (n.elts.filter (fun x => decide (x < p))) n.family,
       .mk (n.elts.filter (fun x => !decide (x < p))) that.family) := by
  unfold CashewSetNode.splitEltsInto
  rw [splitEltsIntoLoop_eq _ _ _ _ _ (Nat.zero_le _)]
  simp [List.take_append]

/-! ### The well-formedness invariant of reachable trees -/

/-- Well-formedness of (the active part of) a node sitting at depth `d`
in a tree of depth `D` with capacity `M`:

* a node at leaf depth (`d = D`) has no family, one above leaf depth has
  one (this is claim C7's iff, for reachable/active nodes);
* `elt_count ≤ M`, the family holds exactly `M + 1` slots;
* the active children (slots `0 … elt_count`) are recursively
  well-formed; searching for any key `x` stored in active child `i`
  directs the descent to slot `i` (`countLess elts x = i`) and does not
  stop at this node (`x ∉ elts`);
* the inactive tail slots are zero-initialized nodes. -/
inductive WFNode (M D : Nat) : Nat → CashewSetNode → Prop where
  | leaf (elts : List Int) (d : Nat) (hlen : elts.length ≤ M)
      (hd : d = D) : WFNode M D d (.mk elts none)
  | branch (elts : List Int) (ch : List CashewSetNode) (d : Nat)
      (hlen : elts.length ≤ M) (hd : d < D) (hch : ch.length = M + 1)
      (hwf : ∀ i, i ≤ elts.length → WFNode M D (d + 1) (ch.getD i .empty))
      (hord : ∀ i, i ≤ elts.length → ∀ x ∈ keyList (ch.getD i .empty),
        countLess elts x = i ∧ x ∉ elts)
      (htail : ∀ i, elts.length < i → i < M + 1 →
        ch.getD i .empty = .empty) :
      WFNode M D d (.mk elts (some ch))

theorem WFNode.depth_le {M D d : Nat} {n : CashewSetNode}
    (h : WFNode M D d n) : d ≤ D := by
  cases h with
  | leaf _ _ _ hd => omega
  | branch _ _ _ _ hd => omega

theorem WFNode.elt_count_le {M D d : Nat} {n : CashewSetNode}
    (h : WFNode M D d n) : n.elt_count ≤ M := by
  cases h with
  | leaf _ _ hlen => simpa [CashewSetNode.elt_count] using hlen
  | branch _ _ _ hlen => simpa [CashewSetNode.elt_count] using hlen

theorem WFNode.family_none_iff {M D d : Nat} {n : CashewSetNode}
    (h : WFNode M D d n) : n.family = none ↔ d = D := by
  cases h with
  | leaf _ _ _ hd => simp [hd]
  | branch _ _ _ _ hd => simp; omega

/-- The corruption checks pass on any well-formed node. -/
theorem checkBugs_ok_of_WF {M D d : Nat} {n : CashewSetNode}
    (h : WFNode M D d n) : checkBugs M D n d = .ok () := by
  cases h with
  | leaf elts d hlen hd =>
    simp [checkBugs, CashewSetNode.elt_count, Nat.not_lt.mpr hlen, hd]
  | branch elts ch d hlen hd =>
    simp only [checkBugs, CashewSetNode.elt_count, CashewSetNode.elts_mk,
      CashewSetNode.family_mk, gt_iff_lt]
    rw [if_neg (by omega), if_neg (by omega), if_neg (by simp; omega)]

/-- The empty node is well-formed exactly at leaf depth. -/
theorem WFNode.empty_at_leaf (M D : Nat) :
    WFNode M D D CashewSetNode.empty :=
  WFNode.leaf [] D (by simp) rfl

/-- `countRecursive` only returns 0 or 1 (first half of claim C1). -/
theorem countRecursive_le_one (node : CashewSetNode) (key : Int) :
    countRecursive node key ≤ 1 := by
  induction node, key using countRecursive.induct with
  | case1 key elts fam hmem => rw [countRecursive.eq_def]; simp [hmem]
  | case2 key elts hmem => rw [countRecursive.eq_def]; simp [hmem]
  | case3 key elts hmem ch ih =>
    rw [countRecursive.eq_def]
    simpa [hmem] using ih

/-- Under the invariant, `countRecursive` finds exactly the keys stored
in the subtree. -/
theorem countRecursive_eq_one_iff {M D d : Nat} {node : CashewSetNode}
    (h : WFNode M D d node) (key : Int) :
    (countRecursive node key = 1 ↔ key ∈ keyList node) := by
  induction h with
  | leaf elts d hlen hd => rw [countRecursive]; simp
  | branch elts ch d hlen hd hch hwf hord htail ih =>
    rw [countRecursive]
    by_cases hk : key ∈ elts
    · simp [hk]
    · have hlc := countLess_le_length elts key
      rw [if_neg hk, ih (countLess elts key) hlc]
      simp only [keyList_mk_some, List.mem_append]
      constructor
      · intro hmem
        exact Or.inr (mem_keyListFam.mpr ⟨countLess elts key,
          by omega, hmem⟩)
      · rintro (hmem | hmem)
        · exact absurd hmem hk
        · obtain ⟨i, hi, hx⟩ := mem_keyListFam.mp hmem
          have hiact : i ≤ elts.length := by
            by_contra hgt
            rw [htail i (by omega) (by omega)] at hx
            simpa using hx
          rw [(hord i hiact key hx).1]
          exact hx

/-- Growing the tree by a root split moves every existing node one level
down while the tree depth grows by one; well-formedness is preserved. -/
theorem WFNode.shift {M D d : Nat} {n : CashewSetNode}
    (h : WFNode M D d n) : WFNode M (D + 1) (d + 1) n := by
  induction h with
  | leaf elts d hlen hd => exact WFNode.leaf elts (d + 1) hlen (by omega)
  | branch elts ch d hlen hd hch hwf hord htail ih =>
    exact WFNode.branch elts ch (d + 1) hlen (by omega) hch
      (fun i hi => ih i hi) hord htail

theorem set_getD_eq_self {α : Type} (l : List α) (i : Nat) (d : α)
    (h : i < l.length) : l.set i (l.getD i d) = l := by
  apply List.ext_getElem?
  intro j
  by_cases hj : i = j
  · subst hj
    rw [List.getElem?_set_self h]
    simp [List.getElem?_eq_getElem h]
  · rw [List.getElem?_set_ne hj]

theorem eq_take_getD_cons_drop {α : Type} (l : List α) (i : Nat) (d : α)
    (h : i < l.length) : l = l.take i ++ l.getD i d :: l.drop (i + 1) := by
  conv_lhs => rw [← set_getD_eq_self l i d h]
  exact set_eq_take_cons_drop l i (l.getD i d) h

theorem getD_take_of_lt {α : Type} (l : List α) (n i : Nat) (d : α)
    (h : i < n) : (l.take n).getD i d = l.getD i d := by
  simp [List.getElem?_take_of_lt h]

theorem getD_drop {α : Type} (l : List α) (n i : Nat) (d : α) :
    (l.drop n).getD i d = l.getD (n + i) d := by
  simp [List.getElem?_drop]

theorem getD_cons_zero {α : Type} (a : α) (l : List α) (d : α) :
    (a :: l).getD 0 d = a := by
  simp

theorem getD_cons_succ {α : Type} (a : α) (l : List α) (i : Nat) (d : α) :
    (a :: l).getD (i + 1) d = l.getD i d := by
  simp

theorem getD_singleton {α : Type} (a d : α) : [a].getD 0 d = a := by
  simp

/-- Counting a key on both sides of a filter partition. -/
theorem count_filter_add_count_filter_not (l : List Int)
    (p : Int → Bool) (a : Int) :
    (l.filter p).count a + (l.filter (fun x => !p x)).count a
      = l.count a := by
  have := (List.filter_append_perm p l).count_eq a
  rwa [List.count_append] at this

/-- Under the invariant, a key missing from a node's own elements lives in
the subtree iff it lives in the unique child the search descends into. -/
theorem mem_keyList_branch_iff {M D d : Nat} {elts : List Int}
    {ch : List CashewSetNode} {key : Int}
    (hch : ch.length = M + 1) (hlen : elts.length ≤ M)
    (hord : ∀ i, i ≤ elts.length → ∀ x ∈ keyList (ch.getD i .empty),
      countLess elts x = i ∧ x ∉ elts)
    (htail : ∀ i, elts.length < i → i < M + 1 →
      ch.getD i .empty = .empty)
    (hk : key ∉ elts) :
    key ∈ keyList (.mk elts (some ch)) ↔
      key ∈ keyList (ch.getD (countLess elts key) .empty) := by
  constructor
  · intro hmem
    rw [keyList_mk_some] at hmem
    rcases List.mem_append.mp hmem with h | h
    · exact absurd h hk
    · obtain ⟨i, hi, hx⟩ := mem_keyListFam.mp h
      have hiact : i ≤ elts.length := by
        by_contra hgt
        rw [htail i (by omega) (by omega)] at hx
        simpa using hx
      rwa [(hord i hiact key hx).1]
  · intro hmem
    rw [keyList_mk_some]
    refine List.mem_append.mpr (Or.inr (mem_keyListFam.mpr
      ⟨countLess elts key, ?_, hmem⟩))
    have := countLess_le_length elts key
    omega

/-! ### Structural forms of the assembled child arrays -/

/-- The child array of `insertSpacious` after the shift, the two family
installs and the element split: slots `0 … lessCount-1` as before, the
two halves of the split child, the children formerly at
`lessCount+1 … E`, and the former tail slots. -/
theorem spaciousFam_eq (ch : List CashewSetNode)
    (c' ltF gtF : CashewSetNode) (lc E : Nat) (hlc : lc ≤ E)
    (hE : E + 1 < ch.length) :
    ((shiftChildren (ch.set lc c') (lc + 1)
        ((E + 1) - lc - 1)).set lc ltF).set (lc + 1) gtF =
      (((ch.take lc ++ [ltF]) ++ [gtF])
        ++ (ch.drop (lc + 1)).take (E - lc)) ++ ch.drop (E + 2) := by
  have hlc' : lc < ch.length := by omega
  have htl : (ch.take lc).length = lc := by
    simp only [List.length_take]
    omega
  by_cases h0 : lc = E
  · subst h0
    rw [show (lc + 1) - lc - 1 = 0 by omega, shiftChildren_zero,
      List.set_set, set_eq_take_cons_drop _ _ _ hlc',
      show (ch.take lc ++ ltF :: ch.drop (lc + 1)) =
        (ch.take lc ++ [ltF]) ++ ch.drop (lc + 1) by simp,
      List.set_append_right _ _ (by simp [htl]),
      show lc + 1 - (ch.take lc ++ [ltF]).length = 0 by simp [htl],
      List.drop_eq_getElem_cons (show lc + 1 < ch.length by omega),
      List.set_cons_zero]
    simp
  · have hlt : lc < E := by omega
    rw [show (E + 1) - lc - 1 = E - lc by omega,
      shiftChildren_pos _ _ _ (by omega)
        (by simp only [List.length_set]; omega)]
    rw [List.drop_set, if_pos (by omega), List.drop_set,
      if_pos (by omega), List.set_take,
      show lc + 1 + (E - lc) + 1 = E + 2 by omega]
    have hA : ((ch.take (lc + 1)).set lc c').length = lc + 1 := by
      simp only [List.length_set, List.length_take]
      omega
    have hAe : (((ch.take (lc + 1)).set lc c')
        ++ [CashewSetNode.empty]).length = lc + 2 := by
      simp only [List.length_append, List.length_cons,
        List.length_nil, hA]
    have hmid : ((ch.drop (lc + 1)).take (E - lc)).length = E - lc := by
      simp only [List.length_take, List.length_drop]
      omega
    have hLf : ((((ch.take (lc + 1)).set lc c')
        ++ [CashewSetNode.empty])
        ++ (ch.drop (lc + 1)).take (E - lc)).length = E + 2 := by
      simp only [List.length_append, hAe, hmid]
      omega
    have hRa : (ch.take lc ++ [ltF]).length = lc + 1 := by
      simp only [List.length_append, List.length_cons,
        List.length_nil, htl]
    have hRb : ((ch.take lc ++ [ltF]) ++ [gtF]).length = lc + 2 := by
      simp only [List.length_append, List.length_cons,
        List.length_nil, hRa]
    have hRc : (((ch.take lc ++ [ltF]) ++ [gtF])
        ++ (ch.drop (lc + 1)).take (E - lc)).length = E + 2 := by
      simp only [List.length_append, hRb, hmid]
      omega
    apply List.ext_getElem?
    intro i
    by_cases hic : i = lc
    · subst hic
      rw [List.getElem?_set_ne (by omega), List.getElem?_set_self
          (by simp only [List.length_append, hLf, List.length_drop]
              omega),
        List.getElem?_append_left (by rw [hRc]; omega),
        List.getElem?_append_left (by rw [hRb]; omega),
        List.getElem?_append_left (by rw [hRa]; omega),
        List.getElem?_append_right (Nat.le_of_eq htl), htl]
      simp
    · by_cases hic1 : i = lc + 1
      · subst hic1
        rw [List.getElem?_set_self
            (by simp only [List.length_set, List.length_append, hLf,
                List.length_drop]
                omega),
          List.getElem?_append_left (by rw [hRc]; omega),
          List.getElem?_append_left (by rw [hRb]; omega),
          List.getElem?_append_right (by rw [hRa]), hRa]
        simp
      · rw [List.getElem?_set_ne (by omega),
          List.getElem?_set_ne (by omega)]
        rcases Nat.lt_trichotomy i lc with h | h | h
        · rw [List.getElem?_append_left (by rw [hLf]; omega),
            List.getElem?_append_left (by rw [hAe]; omega),
            List.getElem?_append_left (by rw [hA]; omega),
            List.getElem?_set_ne (by omega),
            List.getElem?_take_of_lt (by omega),
            List.getElem?_append_left (by rw [hRc]; omega),
            List.getElem?_append_left (by rw [hRb]; omega),
            List.getElem?_append_left (by rw [hRa]; omega),
            List.getElem?_append_left (by rw [htl]; omega),
            List.getElem?_take_of_lt (by omega)]
        · omega
        · by_cases h2 : i < E + 2
          · rw [List.getElem?_append_left (by rw [hLf]; omega),
              List.getElem?_append_right (by rw [hAe]; omega), hAe,
              List.getElem?_append_left (by rw [hRc]; omega),
              List.getElem?_append_right (by rw [hRb]; omega), hRb]
          · rw [List.getElem?_append_right (by rw [hLf]; omega), hLf,
              List.getElem?_append_right (by rw [hRc]; omega), hRc]

/-- The original child array returned by `insertFull` after the moves:
children left of `lessCount`, the lesser half of the split child, and
moved-from (empty) slots. -/
theorem fullFam0_eq (ch : List CashewSetNode) (c' ltF : CashewSetNode)
    (lc E : Nat) (hlc : lc ≤ E) (hE : E < ch.length) :
    (emptyRegion (ch.set lc c') (lc + 1) ((E + 1) - lc - 1)).set lc ltF
      = ((ch.take lc ++ [ltF])
          ++ List.replicate (E - lc) .empty) ++ ch.drop (E + 1) := by
  have hlc' : lc < ch.length := by omega
  have htl : (ch.take lc).length = lc := by
    simp only [List.length_take]
    omega
  rw [show (E + 1) - lc - 1 = E - lc by omega,
    emptyRegion_eq _ _ _ (by simp only [List.length_set]; omega),
    List.drop_set, if_pos (by omega), List.set_take,
    show lc + 1 + (E - lc) = E + 1 by omega]
  have hA : ((ch.take (lc + 1)).set lc c').length = lc + 1 := by
    simp only [List.length_set, List.length_take]
    omega
  rw [List.set_append_left _ _ (by
      simp only [List.length_append, hA, List.length_replicate]
      omega),
    List.set_append_left _ _ (by rw [hA]; omega), List.set_set]
  have hAeq : (ch.take (lc + 1)).set lc ltF = ch.take lc ++ [ltF] := by
    rw [set_eq_take_cons_drop _ _ _ (by
        simp only [List.length_take]
        omega),
      List.take_take, List.drop_of_length_le (by
        simp only [List.length_take]
        omega)]
    simp [Nat.min_eq_left (by omega : lc ≤ lc + 1)]
  rw [hAeq]

/-- The `nibling` array returned by `insertFull` after the moves: the
greater half of the split child followed by the adopted larger
children and zero-initialized tail slots. -/
theorem fullFam1_eq (M : Nat) (ch : List CashewSetNode)
    (c' gtF : CashewSetNode) (lc E : Nat) (hlc : lc ≤ E)
    (hE : E < ch.length) (hEM : E - lc ≤ M) :
    (niblingAfterMove M (ch.set lc c') (lc + 1)
        ((E + 1) - lc - 1)).set 0 gtF
      = (gtF :: (ch.drop (lc + 1)).take (E - lc))
          ++ List.replicate (M - (E - lc)) .empty := by
  rw [show (E + 1) - lc - 1 = E - lc by omega,
    niblingAfterMove_eq _ _ _ _ (by simp only [List.length_set]; omega)
      hEM,
    List.drop_set, if_pos (by omega),
    List.set_append_left _ _ (by simp),
    List.set_cons_zero]

/-- Correctness of the child-split absorption in `insertSpacious`: if the
families returned from below assemble into two well-formed halves of the
split child, then the rebuilt node (with `key` appended) is well-formed
and holds exactly the old keys plus `key`. -/
theorem spacious_split_wf {M D d : Nat} {elts : List Int}
    {ch : List CashewSetNode} {key : Int}
    (hlen : elts.length < M) (hd : d < D) (hch : ch.length = M + 1)
    (hwf : ∀ i, i ≤ elts.length → WFNode M D (d + 1) (ch.getD i .empty))
    (hord : ∀ i, i ≤ elts.length → ∀ x ∈ keyList (ch.getD i .empty),
      countLess elts x = i ∧ x ∉ elts)
    (htail : ∀ i, elts.length < i → i < M + 1 →
      ch.getD i .empty = .empty)
    (hk : key ∉ elts)
    (hkc : key ∉ keyList (ch.getD (countLess elts key) .empty))
    {ltF gtF : CashewSetNode}
    (hwl : WFNode M D (d + 1) ltF) (hwg : WFNode M D (d + 1) gtF)
    (hpl : List.Perm (keyList ltF)
      ((keyList (ch.getD (countLess elts key) .empty)).filter
        (fun x => decide (x < key))))
    (hpg : List.Perm (keyList gtF)
      ((keyList (ch.getD (countLess elts key) .empty)).filter
        (fun x => !decide (x < key)))) :
    WFNode M D d (.mk (elts ++ [key]) (some
      ((((ch.take (countLess elts key) ++ [ltF]) ++ [gtF])
        ++ (ch.drop (countLess elts key + 1)).take
          (elts.length - countLess elts key))
        ++ ch.drop (elts.length + 2))))
    ∧ List.Perm (keyList (.mk (elts ++ [key]) (some
      ((((ch.take (countLess elts key) ++ [ltF]) ++ [gtF])
        ++ (ch.drop (countLess elts key + 1)).take
          (elts.length - countLess elts key))
        ++ ch.drop (elts.length + 2)))))
      (key :: keyList (.mk elts (some ch))) := by
  have hlc0 : countLess elts key ≤ elts.length :=
    countLess_le_length _ _
  set lc := countLess elts key with hlcdef
  set E := elts.length with hEdef
  have hlc : lc ≤ E := hlc0
  have hta : (ch.take lc).length = lc := by
    simp only [List.length_take]
    omega
  have hta1 : (ch.take lc ++ [ltF]).length = lc + 1 := by
    simp only [List.length_append, List.length_cons, List.length_nil,
      hta]
  have hA : ((ch.take lc ++ [ltF]) ++ [gtF]).length = lc + 2 := by
    simp only [List.length_append, List.length_cons, List.length_nil,
      hta]
  have hmidlen : ((ch.drop (lc + 1)).take (E - lc)).length = E - lc := by
    simp only [List.length_take, List.length_drop]
    omega
  have hAB : (((ch.take lc ++ [ltF]) ++ [gtF])
      ++ (ch.drop (lc + 1)).take (E - lc)).length = E + 2 := by
    simp only [List.length_append, hA, hmidlen]
    omega
  have hlen3 : ((((ch.take lc ++ [ltF]) ++ [gtF])
      ++ (ch.drop (lc + 1)).take (E - lc))
      ++ ch.drop (E + 2)).length = M + 1 := by
    simp only [List.length_append, hAB, List.length_drop]
    omega
  have g_lt : ∀ i, i < lc →
      ((((ch.take lc ++ [ltF]) ++ [gtF])
        ++ (ch.drop (lc + 1)).take (E - lc))
        ++ ch.drop (E + 2)).getD i .empty = ch.getD i .empty := by
    intro i hi
    rw [getD_append_left _ _ _ _ (by rw [hAB]; omega),
      getD_append_left _ _ _ _ (by rw [hA]; omega),
      getD_append_left _ _ _ _ (by rw [hta1]; omega),
      getD_append_left _ _ _ _ (by rw [hta]; omega),
      getD_take_of_lt _ _ _ _ hi]
  have g_lc : ((((ch.take lc ++ [ltF]) ++ [gtF])
      ++ (ch.drop (lc + 1)).take (E - lc))
      ++ ch.drop (E + 2)).getD lc .empty = ltF := by
    rw [getD_append_left _ _ _ _ (by rw [hAB]; omega),
      getD_append_left _ _ _ _ (by rw [hA]; omega),
      getD_append_left _ _ _ _ (by rw [hta1]; omega),
      getD_append_right _ _ _ _ (Nat.le_of_eq hta),
      hta, Nat.sub_self, getD_singleton]
  have g_lc1 : ((((ch.take lc ++ [ltF]) ++ [gtF])
      ++ (ch.drop (lc + 1)).take (E - lc))
      ++ ch.drop (E + 2)).getD (lc + 1) .empty = gtF := by
    rw [getD_append_left _ _ _ _ (by rw [hAB]; omega),
      getD_append_left _ _ _ _ (by rw [hA]; omega),
      getD_append_right _ _ _ _ (Nat.le_of_eq hta1), hta1,
      show lc + 1 - (lc + 1) = 0 by omega, getD_singleton]
  have g_mid : ∀ i, lc + 2 ≤ i → i ≤ E + 1 →
      ((((ch.take lc ++ [ltF]) ++ [gtF])
        ++ (ch.drop (lc + 1)).take (E - lc))
        ++ ch.drop (E + 2)).getD i .empty = ch.getD (i - 1) .empty := by
    intro i hi1 hi2
    rw [getD_append_left _ _ _ _ (by rw [hAB]; omega),
      getD_append_right _ _ _ _ (by rw [hA]; omega), hA,
      getD_take_of_lt _ _ _ _ (by omega), getD_drop,
      show lc + 1 + (i - (lc + 2)) = i - 1 by omega]
  have g_tail : ∀ i, E + 2 ≤ i →
      ((((ch.take lc ++ [ltF]) ++ [gtF])
        ++ (ch.drop (lc + 1)).take (E - lc))
        ++ ch.drop (E + 2)).getD i .empty = ch.getD i .empty := by
    intro i hi
    rw [getD_append_right _ _ _ _ (by rw [hAB]; omega), hAB, getD_drop,
      show E + 2 + (i - (E + 2)) = i by omega]
  have hlen' : (elts ++ [key]).length = E + 1 := by
    simp only [List.length_append, List.length_cons, List.length_nil,
      hEdef]
  constructor
  · refine WFNode.branch _ _ _ (by rw [hlen']; omega) hd hlen3 ?_ ?_ ?_
    · intro i hi
      rw [hlen'] at hi
      rcases Nat.lt_trichotomy i lc with h | h | h
      · rw [g_lt i h]
        exact hwf i (by omega)
      · subst h
        rw [g_lc]
        exact hwl
      · rcases Nat.eq_or_lt_of_le h with h1 | h1
        · rw [← h1, g_lc1]
          exact hwg
        · rw [g_mid i (by omega) (by omega)]
          exact hwf (i - 1) (by omega)
    · intro i hi x hx
      rw [hlen'] at hi
      have hxgoal : countLess elts x = i - (if key < x then 1 else 0) →
          False → True := fun _ _ => trivial
      rcases Nat.lt_trichotomy i lc with h | h | h
      · rw [g_lt i h] at hx
        obtain ⟨hcx, hnx⟩ := hord i (by omega) x hx
        have hxk : x < key := lt_of_countLess_lt elts
          (show countLess elts x < countLess elts key by
            rw [← hlcdef]; omega)
        constructor
        · rw [countLess_concat, hcx, if_neg (show ¬key < x by omega)]
          omega
        · simp only [List.mem_append, List.mem_singleton]
          push_neg
          exact ⟨hnx, by omega⟩
      · subst h
        rw [g_lc] at hx
        have hx' := hpl.mem_iff.mp hx
        rw [List.mem_filter] at hx'
        obtain ⟨hxc, hxlt⟩ := hx'
        have hxk : x < key := by simpa using hxlt
        obtain ⟨hcx, hnx⟩ := hord lc (by omega) x hxc
        constructor
        · rw [countLess_concat, hcx, if_neg (show ¬key < x by omega)]
          omega
        · simp only [List.mem_append, List.mem_singleton]
          push_neg
          exact ⟨hnx, by omega⟩
      · rcases Nat.eq_or_lt_of_le h with h1 | h1
        · rw [← h1, g_lc1] at hx
          have hx' := hpg.mem_iff.mp hx
          rw [List.mem_filter] at hx'
          obtain ⟨hxc, hxlt⟩ := hx'
          have hxk : key < x := by
            have hne : x ≠ key := fun he => hkc (he ▸ hxc)
            simp only [Bool.not_eq_eq_eq_not, Bool.not_true,
              decide_eq_false_iff_not] at hxlt
            omega
          obtain ⟨hcx, hnx⟩ := hord lc (by omega) x hxc
          constructor
          · rw [countLess_concat, hcx, if_pos hxk]
            omega
          · simp only [List.mem_append, List.mem_singleton]
            push_neg
            exact ⟨hnx, by omega⟩
        · rw [g_mid i (by omega) (by omega)] at hx
          obtain ⟨hcx, hnx⟩ := hord (i - 1) (by omega) x hx
          have hxk : key < x := lt_of_countLess_lt elts
            (show countLess elts key < countLess elts x by
              rw [← hlcdef]; omega)
          constructor
          · rw [countLess_concat, hcx, if_pos hxk]
            omega
          · simp only [List.mem_append, List.mem_singleton]
            push_neg
            exact ⟨hnx, by omega⟩
    · intro i hi1 hi2
      rw [hlen'] at hi1
      rw [g_tail i (by omega)]
      exact htail i (by omega) (by omega)
  · rw [List.perm_iff_count]
    intro a
    have hchdec : keyListFam ch = keyListFam (ch.take lc)
        ++ (keyList (ch.getD lc .empty)
          ++ (keyListFam ((ch.drop (lc + 1)).take (E - lc))
            ++ keyListFam (ch.drop (E + 2)))) := by
      conv_lhs => rw [eq_take_getD_cons_drop ch lc .empty (by omega)]
      rw [keyListFam_append, keyListFam_cons]
      congr 2
      conv_lhs =>
        rw [← List.take_append_drop (E - lc) (ch.drop (lc + 1))]
      rw [keyListFam_append, List.drop_drop,
        show lc + 1 + (E - lc) = E + 1 by omega]
      congr 1
      rw [eq_take_getD_cons_drop (ch.drop (E + 1)) 0 .empty
          (by simp only [List.length_drop]; omega),
        getD_drop, List.drop_drop,
        show E + 1 + 0 = E + 1 by omega,
        show E + 1 + (0 + 1) = E + 2 by omega]
      rw [htail (E + 1) (by omega) (by omega)]
      simp
    rw [keyList_mk_some, keyList_mk_some, hchdec]
    simp only [keyListFam_append, keyListFam_cons, keyListFam_nil,
      List.count_append, List.count_cons, List.append_nil,
      List.count_nil]
    have hl := hpl.count_eq a
    have hg := hpg.count_eq a
    have hsum := count_filter_add_count_filter_not
      (keyList (ch.getD lc .empty)) (fun x => decide (x < key)) a
    omega

theorem count_filter_eq (l : List Int) (p : Int → Bool) (a : Int) :
    (l.filter p).count a = if p a then l.count a else 0 := by
  by_cases h : p a
  · rw [if_pos h, List.count_filter h]
  · rw [if_neg h]
    exact List.count_eq_zero_of_not_mem
      (fun hm => h (List.mem_filter.mp hm).2)

/-- Correctness of the node split in `insertFull`: with the two families
from the level below installed, the original child array (holding the
lesser part) and the nibling array (holding the greater part) assemble
with the split node's elements into two well-formed nodes partitioning
its keys around the inserted key. -/
theorem full_split_wf {M D d : Nat} {elts : List Int}
    {ch : List CashewSetNode} {key : Int}
    (hlen : elts.length = M) (hd : d < D) (hch : ch.length = M + 1)
    (hwf : ∀ i, i ≤ elts.length → WFNode M D (d + 1) (ch.getD i .empty))
    (hord : ∀ i, i ≤ elts.length → ∀ x ∈ keyList (ch.getD i .empty),
      countLess elts x = i ∧ x ∉ elts)
    (hk : key ∉ elts)
    (hkc : key ∉ keyList (ch.getD (countLess elts key) .empty))
    {ltF gtF : CashewSetNode}
    (hwl : WFNode M D (d + 1) ltF) (hwg : WFNode M D (d + 1) gtF)
    (hpl : List.Perm (keyList ltF)
      ((keyList (ch.getD (countLess elts key) .empty)).filter
        (fun x => decide (x < key))))
    (hpg : List.Perm (keyList gtF)
      ((keyList (ch.getD (countLess elts key) .empty)).filter
        (fun x => !decide (x < key)))) :
    WFNode M D d (.mk (elts.filter (fun x => decide (x < key))) (some
      (((ch.take (countLess elts key) ++ [ltF])
        ++ List.replicate (M - countLess elts key) .empty)
        ++ ch.drop (M + 1))))
    ∧ WFNode M D d (.mk (elts.filter (fun x => !decide (x < key))) (some
      ((gtF :: (ch.drop (countLess elts key + 1)).take
          (M - countLess elts key))
        ++ List.replicate (M - (M - countLess elts key)) .empty)))
    ∧ List.Perm (keyList (.mk (elts.filter (fun x => decide (x < key)))
        (some (((ch.take (countLess elts key) ++ [ltF])
          ++ List.replicate (M - countLess elts key) .empty)
          ++ ch.drop (M + 1)))))
      ((keyList (.mk elts (some ch))).filter (fun x => decide (x < key)))
    ∧ List.Perm (keyList (.mk (elts.filter (fun x => !decide (x < key)))
        (some ((gtF :: (ch.drop (countLess elts key + 1)).take
            (M - countLess elts key))
          ++ List.replicate (M - (M - countLess elts key)) .empty))))
      ((keyList (.mk elts (some ch))).filter
        (fun x => !decide (x < key))) := by
  have hlc0 : countLess elts key ≤ elts.length :=
    countLess_le_length _ _
  set lc := countLess elts key with hlcdef
  have hlc : lc ≤ M := by omega
  have hdropnil : ch.drop (M + 1) = [] :=
    List.drop_of_length_le (Nat.le_of_eq hch)
  have hta : (ch.take lc).length = lc := by
    simp only [List.length_take]
    omega
  have hta1 : (ch.take lc ++ [ltF]).length = lc + 1 := by
    simp only [List.length_append, List.length_cons, List.length_nil,
      hta]
  have hmidlen : ((ch.drop (lc + 1)).take (M - lc)).length = M - lc := by
    simp only [List.length_take, List.length_drop]
    omega
  have hlenf0 : (((ch.take lc ++ [ltF])
      ++ List.replicate (M - lc) CashewSetNode.empty)
      ++ ch.drop (M + 1)).length = M + 1 := by
    simp only [List.length_append, hta1, List.length_replicate,
      List.length_drop]
    omega
  have hlenf1 : ((gtF :: (ch.drop (lc + 1)).take (M - lc))
      ++ List.replicate (M - (M - lc)) CashewSetNode.empty).length
      = M + 1 := by
    simp only [List.length_append, List.length_cons, hmidlen,
      List.length_replicate]
    omega
  have hlf : (elts.filter (fun x => decide (x < key))).length = lc := by
    rw [hlcdef, countLess, List.countP_eq_length_filter]
  have hgf : (elts.filter (fun x => !decide (x < key))).length
      = M - lc := by
    have hper := (List.filter_append_perm
      (fun x => decide (x < key)) elts).length_eq
    rw [List.length_append] at hper
    omega
  have f0_lt : ∀ i, i < lc →
      (((ch.take lc ++ [ltF])
        ++ List.replicate (M - lc) CashewSetNode.empty)
        ++ ch.drop (M + 1)).getD i .empty = ch.getD i .empty := by
    intro i hi
    rw [getD_append_left _ _ _ _ (by
        simp only [List.length_append, hta1, List.length_replicate]
        omega),
      getD_append_left _ _ _ _ (by rw [hta1]; omega),
      getD_append_left _ _ _ _ (by rw [hta]; omega),
      getD_take_of_lt _ _ _ _ hi]
  have f0_lc : (((ch.take lc ++ [ltF])
      ++ List.replicate (M - lc) CashewSetNode.empty)
      ++ ch.drop (M + 1)).getD lc .empty = ltF := by
    rw [getD_append_left _ _ _ _ (by
        simp only [List.length_append, hta1, List.length_replicate]
        omega),
      getD_append_left _ _ _ _ (by rw [hta1]; omega),
      getD_append_right _ _ _ _ (Nat.le_of_eq hta), hta,
      Nat.sub_self, getD_singleton]
  have f0_tail : ∀ i, lc < i → i < M + 1 →
      (((ch.take lc ++ [ltF])
        ++ List.replicate (M - lc) CashewSetNode.empty)
        ++ ch.drop (M + 1)).getD i .empty = .empty := by
    intro i hi1 hi2
    rw [getD_append_left _ _ _ _ (by
        simp only [List.length_append, hta1, List.length_replicate]
        omega),
      getD_append_right _ _ _ _ (by rw [hta1]; omega), hta1,
      getD_replicate _ _ _ _ (by omega)]
  have f1_0 : ((gtF :: (ch.drop (lc + 1)).take (M - lc))
      ++ List.replicate (M - (M - lc)) CashewSetNode.empty).getD 0
        .empty = gtF := by
    rw [getD_append_left _ _ _ _ (by simp), getD_cons_zero]
  have f1_mid : ∀ i, 1 ≤ i → i ≤ M - lc →
      ((gtF :: (ch.drop (lc + 1)).take (M - lc))
        ++ List.replicate (M - (M - lc)) CashewSetNode.empty).getD i
          .empty = ch.getD (lc + i) .empty := by
    intro i hi1 hi2
    have hi' : i - 1 + 1 = i := by omega
    rw [getD_append_left _ _ _ _ (by
        simp only [List.length_cons, hmidlen]
        omega),
      ← hi', getD_cons_succ, getD_take_of_lt _ _ _ _ (by omega),
      getD_drop, show lc + 1 + (i - 1) = lc + (i - 1 + 1) by omega,
      hi']
  have f1_tail : ∀ i, M - lc < i → i < M + 1 →
      ((gtF :: (ch.drop (lc + 1)).take (M - lc))
        ++ List.replicate (M - (M - lc)) CashewSetNode.empty).getD i
          .empty = .empty := by
    intro i hi1 hi2
    rw [getD_append_right _ _ _ _ (by
        simp only [List.length_cons, hmidlen]
        omega),
      getD_replicate]
    simp only [List.length_cons, hmidlen]
    omega
  have hmemTake : ∀ x ∈ keyListFam (ch.take lc), x < key := by
    intro x hx
    obtain ⟨i, hi, hxi⟩ := mem_keyListFam.mp hx
    rw [hta] at hi
    rw [getD_take_of_lt _ _ _ _ hi] at hxi
    have := (hord i (by omega) x hxi).1
    exact lt_of_countLess_lt elts (by rw [← hlcdef] at *; omega)
  have hmemDrop : ∀ x ∈ keyListFam (ch.drop (lc + 1)), key < x := by
    intro x hx
    obtain ⟨i, hi, hxi⟩ := mem_keyListFam.mp hx
    simp only [List.length_drop] at hi
    rw [getD_drop] at hxi
    have := (hord (lc + 1 + i) (by omega) x hxi).1
    exact lt_of_countLess_lt elts (by rw [← hlcdef] at *; omega)
  have hchdec : keyListFam ch = keyListFam (ch.take lc)
      ++ (keyList (ch.getD lc .empty)
        ++ keyListFam (ch.drop (lc + 1))) := by
    conv_lhs => rw [eq_take_getD_cons_drop ch lc .empty (by omega)]
    rw [keyListFam_append, keyListFam_cons]
  have hmidfull : (ch.drop (lc + 1)).take (M - lc) =
      ch.drop (lc + 1) := by
    apply List.take_of_length_le
    simp only [List.length_drop]
    omega
  refine ⟨?_, ?_, ?_, ?_⟩
  · refine WFNode.branch _ _ _ (by rw [hlf]; omega) hd hlenf0 ?_ ?_ ?_
    · intro i hi
      rw [hlf] at hi
      rcases Nat.lt_or_ge i lc with h | h
      · rw [f0_lt i h]
        exact hwf i (by omega)
      · have : i = lc := by omega
        subst this
        rw [f0_lc]
        exact hwl
    · intro i hi x hx
      rw [hlf] at hi
      rcases Nat.lt_or_ge i lc with h | h
      · rw [f0_lt i h] at hx
        obtain ⟨hcx, hnx⟩ := hord i (by omega) x hx
        have hxk : x < key := lt_of_countLess_lt elts
          (show countLess elts x < countLess elts key by
            rw [← hlcdef]; omega)
        refine ⟨?_, fun hm => hnx (List.mem_filter.mp hm).1⟩
        rw [countLess_filter_lt elts hxk, hcx]
      · have : i = lc := by omega
        subst this
        rw [f0_lc] at hx
        have hx' := hpl.mem_iff.mp hx
        rw [List.mem_filter] at hx'
        obtain ⟨hxc, hxlt⟩ := hx'
        have hxk : x < key := by simpa using hxlt
        obtain ⟨hcx, hnx⟩ := hord lc (by omega) x hxc
        refine ⟨?_, fun hm => hnx (List.mem_filter.mp hm).1⟩
        rw [countLess_filter_lt elts hxk, hcx]
    · intro i hi1 hi2
      rw [hlf] at hi1
      exact f0_tail i hi1 hi2
  · refine WFNode.branch _ _ _ (by rw [hgf]; omega) hd hlenf1 ?_ ?_ ?_
    · intro i hi
      rw [hgf] at hi
      rcases eq_or_ne i 0 with h | h
      · subst h
        rw [f1_0]
        exact hwg
      · rw [f1_mid i (by omega) hi]
        exact hwf (lc + i) (by omega)
    · intro i hi x hx
      rw [hgf] at hi
      rcases eq_or_ne i 0 with h | h
      · subst h
        rw [f1_0] at hx
        have hx' := hpg.mem_iff.mp hx
        rw [List.mem_filter] at hx'
        obtain ⟨hxc, hxlt⟩ := hx'
        have hxk : key < x := by
          have hne : x ≠ key := fun he => hkc (he ▸ hxc)
          simp only [Bool.not_eq_eq_eq_not, Bool.not_true,
            decide_eq_false_iff_not] at hxlt
          omega
        obtain ⟨hcx, hnx⟩ := hord lc (by omega) x hxc
        refine ⟨?_, fun hm => hnx (List.mem_filter.mp hm).1⟩
        have := countLess_filter_not_lt elts hxk
        rw [← hlcdef] at this
        omega
      · rw [f1_mid i (by omega) hi] at hx
        obtain ⟨hcx, hnx⟩ := hord (lc + i) (by omega) x hx
        have hxk : key < x := lt_of_countLess_lt elts
          (show countLess elts key < countLess elts x by
            rw [← hlcdef]; omega)
        refine ⟨?_, fun hm => hnx (List.mem_filter.mp hm).1⟩
        have := countLess_filter_not_lt elts hxk
        rw [← hlcdef] at this
        omega
    · intro i hi1 hi2
      rw [hgf] at hi1
      exact f1_tail i hi1 hi2
  · rw [List.perm_iff_count]
    intro a
    rw [keyList_mk_some, keyList_mk_some, hchdec, hdropnil,
      List.filter_append]
    simp only [keyListFam_append, keyListFam_cons, keyListFam_nil,
      keyListFam_replicate_empty, List.count_append, List.append_nil,
      List.count_nil]
    have hl := hpl.count_eq a
    have hcf := count_filter_eq (keyList (ch.getD lc .empty))
      (fun x => decide (x < key)) a
    have hcf2 := count_filter_eq (keyListFam (ch.take lc)
      ++ (keyList (ch.getD lc .empty) ++ keyListFam (ch.drop (lc + 1))))
      (fun x => decide (x < key)) a
    simp only [List.count_append] at hcf2
    by_cases hak : a < key
    · rw [hl, hcf2, if_pos (by simpa using hak), hcf,
        if_pos (by simpa using hak)]
      have hdz : (keyListFam (ch.drop (lc + 1))).count a = 0 :=
        List.count_eq_zero_of_not_mem
          (fun hm => by have := hmemDrop a hm; omega)
      omega
    · rw [hl, hcf2, if_neg (by simpa using hak), hcf,
        if_neg (by simpa using hak)]
      have htz : (keyListFam (ch.take lc)).count a = 0 :=
        List.count_eq_zero_of_not_mem
          (fun hm => by have := hmemTake a hm; omega)
      omega
  · rw [List.perm_iff_count]
    intro a
    rw [keyList_mk_some, keyList_mk_some, hchdec, hmidfull,
      List.filter_append]
    simp only [keyListFam_append, keyListFam_cons, keyListFam_nil,
      keyListFam_replicate_empty, List.count_append, List.append_nil,
      List.count_nil]
    have hg := hpg.count_eq a
    have hcf := count_filter_eq (keyList (ch.getD lc .empty))
      (fun x => !decide (x < key)) a
    have hcf2 := count_filter_eq (keyListFam (ch.take lc)
      ++ (keyList (ch.getD lc .empty) ++ keyListFam (ch.drop (lc + 1))))
      (fun x => !decide (x < key)) a
    simp only [List.count_append] at hcf2
    by_cases hak : a < key
    · rw [hg, hcf2, if_neg (by simpa using hak), hcf,
        if_neg (by simpa using hak)]
      have hdz : (keyListFam (ch.drop (lc + 1))).count a = 0 :=
        List.count_eq_zero_of_not_mem
          (fun hm => by have := hmemDrop a hm; omega)
      omega
    · rw [hg, hcf2, if_pos (by simpa using hak), hcf,
        if_pos (by simpa using hak)]
      have htz : (keyListFam (ch.take lc)).count a = 0 :=
        List.count_eq_zero_of_not_mem
          (fun hm => by have := hmemTake a hm; omega)
      omega

theorem getD_range_map {α : Type} (n : Nat) (f : Nat → α) (i : Nat)
    (d : α) : (((List.range n).map f).getD i d)
      = if i < n then f i else d := by
  by_cases h : i < n
  · rw [if_pos h, List.getD_eq_getElem?_getD, List.getElem?_map,
      List.getElem?_range h]
    rfl
  · rw [if_neg h, List.getD_eq_default]
    simp only [List.length_map, List.length_range]
    omega

/-- `shiftArray` does not touch the slots left of the shifted region. -/
theorem shiftChildren_getD_front (ch : List CashewSetNode)
    (st len i : Nat) (hi : i < st) (hlen : i < ch.length) :
    (shiftChildren ch st len).getD i .empty = ch.getD i .empty := by
  unfold shiftChildren
  rw [getD_range_map, if_pos hlen, if_pos hi]

/-- `move_n` does not touch the slots left of the moved-from region. -/
theorem emptyRegion_getD_front (ch : List CashewSetNode)
    (st cnt i : Nat) (hi : i < st) (hlen : i < ch.length) :
    (emptyRegion ch st cnt).getD i .empty = ch.getD i .empty := by
  unfold emptyRegion
  rw [getD_range_map, if_pos hlen, if_neg (by omega)]

/-- Correctness of propagating a successful child-level insertion: the
node with its descended-into child replaced is well-formed and holds
the old keys plus `key`. -/
theorem child_replace_wf {M D d : Nat} {elts : List Int}
    {ch : List CashewSetNode} {key : Int}
    (hlen : elts.length ≤ M) (hd : d < D) (hch : ch.length = M + 1)
    (hwf : ∀ i, i ≤ elts.length → WFNode M D (d + 1) (ch.getD i .empty))
    (hord : ∀ i, i ≤ elts.length → ∀ x ∈ keyList (ch.getD i .empty),
      countLess elts x = i ∧ x ∉ elts)
    (htail : ∀ i, elts.length < i → i < M + 1 →
      ch.getD i .empty = .empty)
    (hk : key ∉ elts) {c' : CashewSetNode}
    (hwc : WFNode M D (d + 1) c')
    (hpc : List.Perm (keyList c')
      (key :: keyList (ch.getD (countLess elts key) .empty))) :
    WFNode M D d (.mk elts (some (ch.set (countLess elts key) c')))
    ∧ List.Perm
      (keyList (.mk elts (some (ch.set (countLess elts key) c'))))
      (key :: keyList (.mk elts (some ch))) := by
  have hlc0 : countLess elts key ≤ elts.length :=
    countLess_le_length _ _
  set lc := countLess elts key with hlcdef
  have hlcch : lc < ch.length := by omega
  constructor
  · refine WFNode.branch _ _ _ hlen hd
      (by rw [List.length_set, hch]) ?_ ?_ ?_
    · intro i hi
      rcases eq_or_ne lc i with h | h
      · subst h
        rw [getD_set_self _ _ _ _ hlcch]
        exact hwc
      · rw [getD_set_ne _ _ _ _ _ h]
        exact hwf i hi
    · intro i hi x hx
      rcases eq_or_ne lc i with h | h
      · subst h
        rw [getD_set_self _ _ _ _ hlcch] at hx
        rcases List.mem_cons.mp (hpc.mem_iff.mp hx) with h1 | h1
        · subst h1
          exact ⟨hlcdef.symm, hk⟩
        · exact hord lc hi x h1
      · rw [getD_set_ne _ _ _ _ _ h] at hx
        exact hord i hi x hx
    · intro i hi1 hi2
      rw [getD_set_ne _ _ _ _ _ (by omega)]
      exact htail i hi1 hi2
  · rw [List.perm_iff_count]
    intro a
    rw [keyList_mk_some, keyList_mk_some,
      set_eq_take_cons_drop _ _ _ hlcch]
    conv_rhs => rw [eq_take_getD_cons_drop ch lc .empty hlcch]
    simp only [keyListFam_append, keyListFam_cons, List.count_append,
      List.count_cons]
    have hc := hpc.count_eq a
    rw [List.count_cons] at hc
    omega

/-- The behaviour of `tryInsert` on a well-formed node at depth `d`:
it never fails; a key already stored is reported as a duplicate with no
state change; a fresh key is either absorbed (`done`, keys extended by
`key`, count incremented, invariant restored) or the node splits
(`familySplit`): the node keeps its elements but loses its family, no
count change, and the two returned families — combined with the node's
elements filtered around `key`, exactly as the caller will combine them —
form two well-formed nodes partitioning the node's keys around `key`. -/
def TrySpec (M D d cnt : Nat) (node : CashewSetNode) (key : Int)
    (out : Except Err (Nat × CashewSetNode × TryInsertResult)) : Prop :=
  ∃ cnt' node' res, out = .ok (cnt', node', res) ∧
    ((key ∈ keyList node ∧ res.status = .duplicateFound ∧ node' = node
        ∧ cnt' = cnt)
     ∨ (key ∉ keyList node ∧ res.status = .done ∧ cnt' = cnt + 1
        ∧ WFNode M D d node'
        ∧ List.Perm (keyList node') (key :: keyList node))
     ∨ (key ∉ keyList node ∧ res.status = .familySplit ∧ cnt' = cnt
        ∧ node'.elts = node.elts ∧ node'.family = none
        ∧ WFNode M D d (.mk (node.elts.filter
            (fun x => decide (x < key))) res.family0)
        ∧ WFNode M D d (.mk (node.elts.filter
            (fun x => !decide (x < key))) res.family1)
        ∧ List.Perm (keyList (.mk (node.elts.filter
            (fun x => decide (x < key))) res.family0))
          ((keyList node).filter (fun x => decide (x < key)))
        ∧ List.Perm (keyList (.mk (node.elts.filter
            (fun x => !decide (x < key))) res.family1))
          ((keyList node).filter (fun x => !decide (x < key)))))

theorem tryInsert_unfold_ok {M D cnt : Nat} {node : CashewSetNode}
    {d : Nat} {key : Int} (hcb : checkBugs M D node d = .ok ()) :
    tryInsert M D cnt node d key =
      if key ∈ node.elts then
        .ok (cnt, node, ⟨none, none, .duplicateFound⟩)
      else if node.elt_count < M then
        insertSpacious M D cnt node d key (countLess node.elts key)
      else insertFull M D cnt node d key (countLess node.elts key) := by
  rw [tryInsert.eq_def, hcb]

/-- `tryInsert` at leaf depth: the specification holds without any
recursion. -/
theorem tryInsert_spec_leaf (M D d cnt : Nat) (node : CashewSetNode)
    (key : Int) (hdD : d = D) (hwfn : WFNode M D d node) :
    TrySpec M D d cnt node key (tryInsert M D cnt node d key) := by
  have hcb := checkBugs_ok_of_WF hwfn
  cases hwfn with
  | branch _ _ _ _ hd' => omega
  | leaf elts d hlen hdd =>
    rw [tryInsert_unfold_ok hcb]
    by_cases hmem : key ∈ elts
    · rw [if_pos (by simpa using hmem)]
      exact ⟨cnt, _, _, rfl, Or.inl ⟨by simpa using hmem, rfl, rfl,
        rfl⟩⟩
    · rw [if_neg (by simpa using hmem)]
      by_cases hsp : elts.length < M
      · rw [if_pos (by simpa using hsp), insertSpacious.eq_def,
          dif_neg (show ¬ d < D by omega)]
        refine ⟨cnt + 1, _, _, rfl, Or.inr (Or.inl
          ⟨by simpa using hmem, rfl, rfl, ?_, ?_⟩)⟩
        · exact WFNode.leaf _ _ (by
            simp only [CashewSetNode.addElt, CashewSetNode.elts_mk,
              List.length_append, List.length_cons, List.length_nil]
            omega) hdd
        · simp only [CashewSetNode.addElt, CashewSetNode.elts_mk,
            CashewSetNode.family_mk, keyList_mk_none]
          exact List.perm_append_singleton key elts
      · rw [if_neg (by simpa using hsp), insertFull.eq_def,
          if_pos hdd]
        refine ⟨cnt, _, _, rfl, Or.inr (Or.inr
          ⟨by simpa using hmem, rfl, rfl, rfl, rfl, ?_, ?_, ?_, ?_⟩)⟩
        · exact WFNode.leaf _ _
            (le_trans (List.length_filter_le _ _) hlen) hdd
        · exact WFNode.leaf _ _
            (le_trans (List.length_filter_le _ _) hlen) hdd
        · simp
        · simp

theorem insertSpacious_rec_early {M D cnt d : Nat} {elts : List Int}
    {ch : List CashewSetNode} {key : Int} {lc cnt' : Nat}
    {c' : CashewSetNode} {res : TryInsertResult} (h : d < D)
    (heq : tryInsert M D cnt (ch.getD lc .empty) (d + 1) key
      = .ok (cnt', c', res))
    (hres : res.status ≠ .familySplit) :
    insertSpacious M D cnt (.mk elts (some ch)) d key lc =
      .ok (cnt', .mk elts (some (ch.set lc c')), res) := by
  rw [insertSpacious.eq_def, dif_pos h]
  simp only [CashewSetNode.family_mk, CashewSetNode.elts_mk, heq,
    if_pos hres]

theorem insertSpacious_rec_split {M D cnt d : Nat} {elts : List Int}
    {ch : List CashewSetNode} {key : Int} {lc cnt' : Nat}
    {c' : CashewSetNode} {res : TryInsertResult} (h : d < D)
    (heq : tryInsert M D cnt (ch.getD lc .empty) (d + 1) key
      = .ok (cnt', c', res))
    (hres : res.status = .familySplit) :
    insertSpacious M D cnt (.mk elts (some ch)) d key lc =
      .ok (cnt' + 1,
        .mk (elts ++ [key]) (some
          (((shiftChildren (ch.set lc c') (lc + 1)
              (elts.length + 1 - lc - 1)).set lc
            ((CashewSetNode.mk ((shiftChildren (ch.set lc c') (lc + 1)
                (elts.length + 1 - lc - 1)).getD lc .empty).elts
              res.family0).splitEltsInto
              (.mk ((shiftChildren (ch.set lc c') (lc + 1)
                  (elts.length + 1 - lc - 1)).getD (lc + 1) .empty).elts
                res.family1) key).1).set (lc + 1)
            ((CashewSetNode.mk ((shiftChildren (ch.set lc c') (lc + 1)
                (elts.length + 1 - lc - 1)).getD lc .empty).elts
              res.family0).splitEltsInto
              (.mk ((shiftChildren (ch.set lc c') (lc + 1)
                  (elts.length + 1 - lc - 1)).getD (lc + 1) .empty).elts
                res.family1) key).2)),
        ⟨none, none, .done⟩) := by
  rw [insertSpacious.eq_def, dif_pos h]
  simp only [CashewSetNode.family_mk, CashewSetNode.elts_mk, heq,
    if_neg (show ¬res.status ≠ .familySplit by simp [hres]),
    CashewSetNode.addElt, CashewSetNode.elt_count_mk]

theorem insertFull_rec_early {M D cnt d : Nat} {elts : List Int}
    {ch : List CashewSetNode} {key : Int} {lc cnt' : Nat}
    {c' : CashewSetNode} {res : TryInsertResult} (h : d < D)
    (heq : tryInsert M D cnt (ch.getD lc .empty) (d + 1) key
      = .ok (cnt', c', res))
    (hres : res.status ≠ .familySplit) :
    insertFull M D cnt (.mk elts (some ch)) d key lc =
      .ok (cnt', .mk elts (some (ch.set lc c')), res) := by
  rw [insertFull.eq_def, if_neg (show ¬d = D by omega)]
  simp only [CashewSetNode.family_mk, CashewSetNode.elts_mk, dif_pos h,
    heq, if_pos hres]

theorem insertFull_rec_split {M D cnt d : Nat} {elts : List Int}
    {ch : List CashewSetNode} {key : Int} {lc cnt' : Nat}
    {c' : CashewSetNode} {res : TryInsertResult} (h : d < D)
    (heq : tryInsert M D cnt (ch.getD lc .empty) (d + 1) key
      = .ok (cnt', c', res))
    (hres : res.status = .familySplit) :
    insertFull M D cnt (.mk elts (some ch)) d key lc =
      .ok (cnt', .mk elts none,
        ⟨some ((emptyRegion (ch.set lc c') (lc + 1)
            (elts.length + 1 - lc - 1)).set lc
          ((CashewSetNode.mk ((emptyRegion (ch.set lc c') (lc + 1)
              (elts.length + 1 - lc - 1)).getD lc .empty).elts
            res.family0).splitEltsInto
            (.mk ((niblingAfterMove M (ch.set lc c') (lc + 1)
                (elts.length + 1 - lc - 1)).getD 0 .empty).elts
              res.family1) key).1),
         some ((niblingAfterMove M (ch.set lc c') (lc + 1)
            (elts.length + 1 - lc - 1)).set 0
          ((CashewSetNode.mk ((emptyRegion (ch.set lc c') (lc + 1)
              (elts.length + 1 - lc - 1)).getD lc .empty).elts
            res.family0).splitEltsInto
            (.mk ((niblingAfterMove M (ch.set lc c') (lc + 1)
                (elts.length + 1 - lc - 1)).getD 0 .empty).elts
              res.family1) key).2),
         .familySplit⟩) := by
  rw [insertFull.eq_def, if_neg (show ¬d = D by omega)]
  simp only [CashewSetNode.family_mk, CashewSetNode.elts_mk, dif_pos h,
    heq, if_neg (show ¬res.status ≠ .familySplit by simp [hres]),
    CashewSetNode.elt_count_mk]

/-- Full specification of `tryInsert` on well-formed nodes: it never
fails; it detects duplicates while changing nothing, absorbs a new key
into a well-formed node (possibly splitting a child on the way), or
reports a split of the node itself into two well-formed halves holding
the keys below and not below the inserted key. -/
theorem tryInsert_spec (M D : Nat) : ∀ (fuel d cnt : Nat)
    (node : CashewSetNode) (key : Int), D - d ≤ fuel →
    WFNode M D d node →
    TrySpec M D d cnt node key (tryInsert M D cnt node d key) := by
  intro fuel
  induction fuel with
  | zero =>
    intro d cnt node key hfuel hwfn
    exact tryInsert_spec_leaf M D d cnt node key
      (by have := hwfn.depth_le; omega) hwfn
  | succ fuel ih =>
    intro d cnt node key hfuel hwfn
    cases hwfn with
    | leaf elts d hlen hdd =>
      exact tryInsert_spec_leaf M D d cnt _ key hdd
        (WFNode.leaf elts d hlen hdd)
    | branch elts ch d hlen hd hch hwf hord htail =>
      have hcb := checkBugs_ok_of_WF
        (WFNode.branch elts ch d hlen hd hch hwf hord htail)
      rw [tryInsert_unfold_ok hcb]
      simp only [CashewSetNode.elts_mk, CashewSetNode.elt_count_mk]
      by_cases hmem : key ∈ elts
      · rw [if_pos hmem]
        exact ⟨cnt, _, _, rfl, Or.inl ⟨by
          rw [keyList_mk_some]
          exact List.mem_append.mpr (Or.inl hmem), rfl, rfl, rfl⟩⟩
      · rw [if_neg hmem]
        have hlc0 : countLess elts key ≤ elts.length :=
          countLess_le_length _ _
        have hkeyiff := @mem_keyList_branch_iff M D d elts ch key hch
          hlen hord htail hmem
        obtain ⟨cnt', c', res, heq, hcase⟩ :=
          ih (d + 1) cnt (ch.getD (countLess elts key) .empty) key
            (by omega) (hwf _ hlc0)
        by_cases hsp : elts.length < M
        · rw [if_pos hsp]
          rcases hcase with ⟨hin, hst, hnd, hcnt⟩ |
            ⟨hnin, hst, hcnt, hwc, hpc⟩ |
            ⟨hnin, hst, hcnt, helts, hfam, hw0, hw1, hp0, hp1⟩
          · rw [insertSpacious_rec_early hd heq (by simp [hst]), hnd,
              set_getD_eq_self ch _ .empty (by omega)]
            exact ⟨cnt', _, _, rfl, Or.inl
              ⟨hkeyiff.mpr hin, hst, rfl, hcnt⟩⟩
          · rw [insertSpacious_rec_early hd heq (by simp [hst])]
            obtain ⟨hW, hP⟩ := child_replace_wf hlen hd hch hwf hord
              htail hmem hwc hpc
            exact ⟨cnt', _, _, rfl, Or.inr (Or.inl
              ⟨fun h => hnin (hkeyiff.mp h), hst, by omega, hW, hP⟩)⟩
          · rw [insertSpacious_rec_split hd heq hst]
            have hg1 : (shiftChildren (ch.set (countLess elts key) c')
                (countLess elts key + 1)
                (elts.length + 1 - countLess elts key - 1)).getD
                (countLess elts key) .empty = c' := by
              rw [shiftChildren_getD_front _ _ _ _ (by omega)
                (by simp only [List.length_set]; omega)]
              exact getD_set_self _ _ _ _ (by omega)
            have hg2 : (shiftChildren (ch.set (countLess elts key) c')
                (countLess elts key + 1)
                (elts.length + 1 - countLess elts key - 1)).getD
                (countLess elts key + 1) .empty = .empty := by
              by_cases hE0 : countLess elts key = elts.length
              · rw [show elts.length + 1 - countLess elts key - 1 = 0
                    by omega, shiftChildren_zero,
                  getD_set_ne _ _ _ _ _ (by omega)]
                exact htail _ (by omega) (by omega)
              · have hT : ((ch.set (countLess elts key) c').take
                    (countLess elts key + 1)).length
                    = countLess elts key + 1 := by
                  simp only [List.length_take, List.length_set]
                  omega
                rw [shiftChildren_pos _ _ _ (by omega)
                  (by simp only [List.length_set]; omega)]
                rw [getD_append_left _ _ _ _ (by
                    simp only [List.length_append, List.length_cons,
                      List.length_nil, hT]
                    omega),
                  getD_append_left _ _ _ _ (by
                    simp only [List.length_append, List.length_cons,
                      List.length_nil, hT]
                    omega),
                  getD_append_right _ _ _ _ (Nat.le_of_eq hT)]
                simp [hT]
            rw [hg1, hg2]
            simp only [splitEltsInto_eq, CashewSetNode.elts_mk,
              CashewSetNode.family_mk]
            rw [helts]
            rw [spaciousFam_eq ch c' _ _ (countLess elts key)
              elts.length hlc0 (by omega)]
            obtain ⟨hW, hP⟩ := spacious_split_wf hsp hd hch hwf hord
              htail hmem hnin hw0 hw1 hp0 hp1
            exact ⟨cnt' + 1, _, _, rfl, Or.inr (Or.inl
              ⟨fun h => hnin (hkeyiff.mp h), rfl, by omega, hW, hP⟩)⟩
        · rw [if_neg hsp]
          have hlenM : elts.length = M := by omega
          rcases hcase with ⟨hin, hst, hnd, hcnt⟩ |
            ⟨hnin, hst, hcnt, hwc, hpc⟩ |
            ⟨hnin, hst, hcnt, helts, hfam, hw0, hw1, hp0, hp1⟩
          · rw [insertFull_rec_early hd heq (by simp [hst]), hnd,
              set_getD_eq_self ch _ .empty (by omega)]
            exact ⟨cnt', _, _, rfl, Or.inl
              ⟨hkeyiff.mpr hin, hst, rfl, hcnt⟩⟩
          · rw [insertFull_rec_early hd heq (by simp [hst])]
            obtain ⟨hW, hP⟩ := child_replace_wf hlen hd hch hwf hord
              htail hmem hwc hpc
            exact ⟨cnt', _, _, rfl, Or.inr (Or.inl
              ⟨fun h => hnin (hkeyiff.mp h), hst, by omega, hW, hP⟩)⟩
          · rw [insertFull_rec_split hd heq hst, hlenM]
            have hg1f : (emptyRegion (ch.set (countLess elts key) c')
                (countLess elts key + 1)
                (M + 1 - countLess elts key - 1)).getD
                (countLess elts key) .empty = c' := by
              rw [emptyRegion_getD_front _ _ _ _ (by omega)
                (by simp only [List.length_set]; omega)]
              exact getD_set_self _ _ _ _ (by omega)
            have hg2f : (niblingAfterMove M
                (ch.set (countLess elts key) c')
                (countLess elts key + 1)
                (M + 1 - countLess elts key - 1)).getD 0 .empty
                = .empty := by
              rw [niblingAfterMove_eq _ _ _ _
                (by simp only [List.length_set]; omega) (by omega)]
              rw [getD_append_left _ _ _ _ (by simp)]
              exact getD_cons_zero _ _ _
            rw [hg1f, hg2f]
            simp only [splitEltsInto_eq, CashewSetNode.elts_mk,
              CashewSetNode.family_mk]
            rw [helts]
            rw [fullFam0_eq ch c' _ (countLess elts key) M (by omega)
                (by omega),
              fullFam1_eq M ch c' _ (countLess elts key) M (by omega)
                (by omega) (by omega)]
            obtain ⟨hW0, hW1, hP0, hP1⟩ := full_split_wf hlenM hd hch
              hwf hord hmem hnin hw0 hw1 hp0 hp1
            refine ⟨cnt', _, _, rfl, Or.inr (Or.inr
              ⟨fun h => hnin (hkeyiff.mp h), rfl, hcnt, rfl, rfl,
               ?_, ?_, ?_, ?_⟩)⟩
            · exact hW0
            · exact hW1
            · exact hP0
            · exact hP1

/-! ### Well-formedness and full specification at the tree level -/

theorem int8_wrap_eq_self {z : Int} (h0 : -128 ≤ z) (h1 : z ≤ 127) :
    int8_wrap z = z := by
  unfold int8_wrap
  rw [Int.emod_eq_of_lt (by omega) (by omega)]
  omega

/-- The `int8_t` depth counter overflows at 127: `++` yields `-128`. -/
theorem int8_wrap_128 : int8_wrap 128 = -128 := by decide

/-- A well-formed tree state: `treeDepth` holds a positive `int8_t`
value (so the post-overflow value `-128` is excluded), the root is
well-formed viewed from depth `1` with `treeDepth` as the common leaf
depth, and `treeEltCount` counts the stored keys. -/
def WFTree (M : Nat) (t : cashew_set) : Prop :=
  WFNode M t.treeDepth.toNat 1 t.root ∧
  t.treeEltCount = (keyList t.root).length ∧
  1 ≤ t.treeDepth ∧ t.treeDepth ≤ 127

theorem WFTree_init (M : Nat) : WFTree M cashew_set.init :=
  ⟨WFNode.empty_at_leaf M 1, by simp [cashew_set.init], by decide,
    by decide⟩

theorem WFTree_clear (M : Nat) (t : cashew_set) :
    WFTree M t.clear :=
  ⟨WFNode.empty_at_leaf M 1, by simp [cashew_set.clear],
    by norm_num [cashew_set.clear], by norm_num [cashew_set.clear]⟩

/-- `insert` unfolded on a successful, non-splitting `tryInsert`. -/
theorem insert_ok_nosplit {M : Nat} {t : cashew_set} {key : Int}
    {cnt' : Nat} {root' : CashewSetNode} {res : TryInsertResult}
    (heq : tryInsert M t.treeDepth.toNat t.treeEltCount t.root 1 key
      = .ok (cnt', root', res))
    (hres : res.status ≠ .familySplit) :
    t.insert M key = (⟨root', t.treeDepth, cnt'⟩,
      .ok (decide (res.status ≠ .duplicateFound))) := by
  unfold cashew_set.insert
  simp only [heq]
  rw [if_pos hres]

/-- `insert` unfolded on a root split, with `splitElts` evaluated: the
stored depth becomes the wrapped `treeDepth + 1`. -/
theorem insert_ok_split {M : Nat} {t : cashew_set} {key : Int}
    {cnt' : Nat} {root' : CashewSetNode} {res : TryInsertResult}
    (heq : tryInsert M t.treeDepth.toNat t.treeEltCount t.root 1 key
      = .ok (cnt', root', res))
    (hres : res.status = .familySplit) :
    t.insert M key = (⟨.mk ([] ++ [key]) (some
      (((make_family M).set 0
          (.mk (root'.elts.filter (fun x => decide (x < key)))
            res.family0)).set 1
        (.mk (root'.elts.filter (fun x => !decide (x < key)))
          res.family1))),
      int8_wrap (t.treeDepth + 1), cnt' + 1⟩, .ok true) := by
  unfold cashew_set.insert
  simp only [heq]
  rw [if_neg (show ¬res.status ≠ .familySplit by simp [hres])]
  simp only [splitElts_eq, CashewSetNode.elts_mk, CashewSetNode.family_mk,
    CashewSetNode.addElt]

/-- On any failure, `insert` hands back a cleared (default-constructed)
tree before re-signalling. -/
theorem insert_error (M : Nat) (t : cashew_set) (key : Int) (e : Err)
    (h : (t.insert M key).2 = .error e) :
    (t.insert M key).1 = cashew_set.init := by
  unfold cashew_set.insert at h ⊢
  cases htc : tryInsert M t.treeDepth.toNat t.treeEltCount t.root 1 key
    with
  | error e' => simp [htc, cashew_set.clear, cashew_set.init]
  | ok v =>
    rw [htc] at h
    obtain ⟨cnt', root', res⟩ := v
    by_cases hs : res.status ≠ .familySplit
    · simp [hs] at h
    · simp [hs] at h

/-- Full specification of `insert` on a well-formed tree: it succeeds,
returns whether the key was new, adds exactly the new key to the
stored key set, accounts the size, is the identity on the state for a
duplicate, leaves a structurally well-formed root in every case, and —
provided the `int8_t` depth counter cannot overflow on this call
(`treeDepth < 127`) — yields a well-formed tree again. -/
theorem insert_spec (M : Nat) (hM : 1 ≤ M) (t : cashew_set) (key : Int)
    (hwf : WFTree M t) :
    (t.insert M key).2 = .ok (decide ¬(key ∈ keyList t.root)) ∧
    List.Perm (keyList (t.insert M key).1.root)
      (if key ∈ keyList t.root then keyList t.root
       else key :: keyList t.root) ∧
    (key ∈ keyList t.root → (t.insert M key).1 = t) ∧
    (t.insert M key).1.treeEltCount
      = t.treeEltCount + (if key ∈ keyList t.root then 0 else 1) ∧
    (∃ D', WFNode M D' 1 (t.insert M key).1.root) ∧
    (t.treeDepth < 127 → WFTree M (t.insert M key).1) := by
  obtain ⟨hwfn, hcnt, hdlo, hdhi⟩ := hwf
  have hD1 : 1 ≤ t.treeDepth.toNat := by omega
  obtain ⟨cnt', root', res, heq, hcase⟩ :=
    tryInsert_spec M t.treeDepth.toNat t.treeDepth.toNat 1
      t.treeEltCount t.root key (by omega) hwfn
  rcases hcase with ⟨hin, hst, hnd, hc⟩ | ⟨hnin, hst, hc, hw, hp⟩ |
    ⟨hnin, hst, hc, helts, hfam, hw0, hw1, hp0, hp1⟩
  · rw [insert_ok_nosplit heq (by simp [hst])]
    subst hnd hc
    refine ⟨?_, ?_, fun _ => rfl, ?_, ⟨t.treeDepth.toNat, hwfn⟩,
      fun _ => ⟨hwfn, hcnt, hdlo, hdhi⟩⟩
    · simp [hst, hin]
    · rw [if_pos hin]
    · simp [hin]
  · rw [insert_ok_nosplit heq (by simp [hst])]
    subst hc
    have hcnt' : t.treeEltCount + 1 = (keyList root').length := by
      simp only [hp.length_eq, List.length_cons]
      omega
    refine ⟨?_, ?_, fun hmem => absurd hmem hnin, ?_,
      ⟨t.treeDepth.toNat, hw⟩, fun _ => ⟨hw, hcnt', hdlo, hdhi⟩⟩
    · simp [hst, hnin]
    · rw [if_neg hnin]
      exact hp
    · simp [hnin]
  · rw [insert_ok_split heq hst]
    subst hc
    rw [helts]
    rw [make_family_set01 M _ _ hM]
    simp only [List.nil_append]
    have hkeys : keyList (CashewSetNode.mk [key] (some
        ((CashewSetNode.mk (t.root.elts.filter
            (fun x => decide (x < key))) res.family0) ::
          (CashewSetNode.mk (t.root.elts.filter
            (fun x => !decide (x < key))) res.family1) ::
          List.replicate (M - 1) CashewSetNode.empty)))
        = key :: (keyList (.mk (t.root.elts.filter
            (fun x => decide (x < key))) res.family0)
          ++ keyList (.mk (t.root.elts.filter
            (fun x => !decide (x < key))) res.family1)) := by
      simp
    have hperm : List.Perm (keyList (.mk (t.root.elts.filter
          (fun x => decide (x < key))) res.family0)
        ++ keyList (.mk (t.root.elts.filter
          (fun x => !decide (x < key))) res.family1))
        (keyList t.root) := by
      refine ((hp0.append hp1).trans ?_)
      exact List.filter_append_perm _ (keyList t.root)
    have hWnew : WFNode M (t.treeDepth.toNat + 1) 1
        (CashewSetNode.mk [key] (some
          ((CashewSetNode.mk (t.root.elts.filter
              (fun x => decide (x < key))) res.family0) ::
            (CashewSetNode.mk (t.root.elts.filter
              (fun x => !decide (x < key))) res.family1) ::
            List.replicate (M - 1) CashewSetNode.empty))) := by
      refine WFNode.branch [key] _ _ (by simpa using hM) (by omega)
        (by simp [List.length_replicate]; omega) ?_ ?_ ?_
      · intro i hi
        simp only [List.length_cons, List.length_nil] at hi
        match i, hi with
        | 0, _ => exact hw0.shift
        | 1, _ => exact hw1.shift
      · intro i hi x hx
        simp only [List.length_cons, List.length_nil] at hi
        match i, hi with
        | 0, _ =>
          rw [getD_cons_zero] at hx
          have hxf := hp0.mem_iff.mp hx
          rw [List.mem_filter] at hxf
          have hxk : x < key := by simpa using hxf.2
          constructor
          · simp only [countLess, List.countP_cons, List.countP_nil]
            simp only [decide_eq_true_eq]
            rw [if_neg (show ¬key < x by omega)]
          · simp only [List.mem_singleton]
            omega
        | 1, _ =>
          rw [getD_cons_succ, getD_cons_zero] at hx
          have hxf := hp1.mem_iff.mp hx
          rw [List.mem_filter] at hxf
          have hxk : ¬(x < key) := by simpa using hxf.2
          have hxne : x ≠ key := by
            intro hxe
            exact hnin (hxe ▸ hxf.1)
          constructor
          · simp only [countLess, List.countP_cons, List.countP_nil]
            simp only [decide_eq_true_eq]
            rw [if_pos (show key < x by omega)]
          · simp only [List.mem_singleton]
            omega
      · intro i h1 h2
        simp only [List.length_cons, List.length_nil] at h1
        match i, h1 with
        | (j + 2), _ =>
          rw [getD_cons_succ, getD_cons_succ]
          exact getD_replicate _ _ _ _ (by omega)
    refine ⟨by simp [hnin], ?_, fun hmem => absurd hmem hnin, ?_,
      ⟨t.treeDepth.toNat + 1, hWnew⟩, ?_⟩
    · rw [if_neg hnin, hkeys]
      exact hperm.cons key
    · simp [hnin]
    · intro hd127
      have hwr : int8_wrap (t.treeDepth + 1) = t.treeDepth + 1 :=
        int8_wrap_eq_self (by omega) (by omega)
      refine ⟨?_, ?_, ?_, ?_⟩
      · show WFNode M (int8_wrap (t.treeDepth + 1)).toNat 1 _
        rw [hwr,
          show (t.treeDepth + 1).toNat = t.treeDepth.toNat + 1 by omega]
        exact hWnew
      · show t.treeEltCount + 1 = _
        rw [hkeys]
        simp only [List.length_cons, hperm.length_eq]
        omega
      · show (1 : Int) ≤ int8_wrap (t.treeDepth + 1)
        rw [hwr]
        omega
      · show int8_wrap (t.treeDepth + 1) ≤ 127
        rw [hwr]
        omega

/-- `m` is an active node of the subtree rooted at `n`: the root itself,
or (recursively) a family member at an index not beyond the parent's
element count.  `d` is the depth of `n`, `d'` the depth of `m`. -/
inductive SubNode : CashewSetNode → Nat → CashewSetNode → Nat → Prop where
  | refl (n : CashewSetNode) (d : Nat) : SubNode n d n d
  | step (elts : List Int) (ch : List CashewSetNode) (d : Nat) (i : Nat)
      (hi : i ≤ elts.length) (m : CashewSetNode) (d' : Nat)
      (h : SubNode (ch.getD i .empty) (d + 1) m d') :
      SubNode (.mk elts (some ch)) d m d'

/-- Well-formedness restricts to every active subnode. -/
theorem WFNode.sub {M D : Nat} : ∀ {n : CashewSetNode} {d : Nat}
    {m : CashewSetNode} {d' : Nat}, SubNode n d m d' →
    WFNode M D d n → WFNode M D d' m := by
  intro n d m d' hs
  induction hs with
  | refl n d => exact fun h => h
  | step elts ch d i hi m d' h ih =>
    intro hwf
    cases hwf with
    | branch _ _ _ hlen hd hch hwf hord htail => exact ih (hwf i hi)


/-! ### Capacity arithmetic of `CashewSetTraits` -/

/-- `cache_line_nbytes` (`cashew_set.h:99`). -/
def cache_line_nbytes : Nat := 64

/-- `elt_count_max` (`cashew_set.h:103-110`): `S` is the key size
`sizeof(Elt)` and `P` the pointer size `sizeof(void*)`; the count field
`elt_count_type = int8_t` is one byte. -/
def elt_count_max (S P : Nat) : Nat := (cache_line_nbytes - P - 1) / S

/-- `children_per_node` (`cashew_set.h:111`). -/
def children_per_node (S P : Nat) : Nat := elt_count_max S P + 1

/-- The pointer widths the header accepts (`cashew_set.h:91-92`). -/
abbrev supportedPtrWidth (P : Nat) : Prop := P = 4 ∨ P = 8

/-- `n` rounded up to a multiple of the alignment `a`. -/
def alignUp (n a : Nat) : Nat := ((n + a - 1) / a) * a

/-- The byte size of `CashewSetNode` (`cashew_set.h:145-171`) under the
C++ layout rules: the family pointer (`P` bytes at alignment `P`), the
one-byte count, then the `elt_count_max * S` buffer bytes placed at the
key's alignment `A`, the record padded to its overall alignment
`max P A`. -/
def sizeofNode (S A P : Nat) : Nat :=
  alignUp (alignUp (P + 1) A + elt_count_max S P * S) (max P A)

/-! ### Concrete evaluations used by the examples -/

theorem countRecursive_empty (key : Int) :
    countRecursive CashewSetNode.empty key = 0 := by
  rw [CashewSetNode.empty, countRecursive]
  simp

theorem tryInsert_eval_leaf_ins :
    tryInsert 1 1 0 CashewSetNode.empty 1 5 =
      .ok (1, .mk [5] none, ⟨none, none, .done⟩) := by
  rw [tryInsert_unfold_ok
      (show checkBugs 1 1 CashewSetNode.empty 1 = .ok () from rfl),
    if_neg (by decide), if_pos (by decide)]
  rw [insertSpacious.eq_def, dif_neg (by omega)]
  rfl

theorem tryInsert_eval_dup :
    tryInsert 1 1 1 (.mk [5] none) 1 5 =
      .ok (1, .mk [5] none, ⟨none, none, .duplicateFound⟩) := by
  rw [tryInsert_unfold_ok
      (show checkBugs 1 1 (.mk [5] none) 1 = .ok () from rfl),
    if_pos (by decide)]

theorem tryInsert_eval_leaf2 :
    tryInsert 2 2 0 CashewSetNode.empty 2 5 =
      .ok (1, .mk [5] none, ⟨none, none, .done⟩) := by
  rw [tryInsert_unfold_ok
      (show checkBugs 2 2 CashewSetNode.empty 2 = .ok () from rfl),
    if_neg (by decide), if_pos (by decide)]
  rw [insertSpacious.eq_def, dif_neg (by omega)]
  rfl

theorem tryInsert_eval_fullroot :
    tryInsert 1 1 1 (.mk [1] none) 1 2 =
      .ok (1, .mk [1] none, ⟨none, none, .familySplit⟩) := by
  rw [tryInsert_unfold_ok
      (show checkBugs 1 1 (.mk [1] none) 1 = .ok () from rfl),
    if_neg (by decide), if_neg (by decide)]
  rw [insertFull.eq_def, if_pos rfl]

theorem insert_eval_first :
    cashew_set.init.insert 1 5 = (⟨.mk [5] none, 1, 1⟩, .ok true) := by
  have h := @insert_ok_nosplit 1 cashew_set.init 5 1 (.mk [5] none)
    ⟨none, none, .done⟩ tryInsert_eval_leaf_ins (by decide)
  rw [h]
  rfl

theorem insert_eval_err :
    ((⟨.mk [0, 1] none, 1, 2⟩ : cashew_set).insert 1 5).2
      = .error .eltCountTooLarge := by
  unfold cashew_set.insert
  rw [tryInsert.eq_def]
  rfl

/-- A small two-level well-formed node used as a concrete example. -/
theorem wf_branch_example :
    WFNode 1 2 1 (.mk [3] (some [.empty, .empty])) := by
  refine WFNode.branch [3] [.empty, .empty] 1 (by decide) (by decide)
    (by decide) ?_ ?_ ?_
  · intro i hi
    match i, hi with
    | 0, _ => exact WFNode.empty_at_leaf 1 2
    | 1, _ => exact WFNode.empty_at_leaf 1 2
  · intro i hi x hx
    match i, hi with
    | 0, _ => simp at hx
    | 1, _ => simp at hx
  · intro i h1 h2
    simp only [List.length_cons, List.length_nil] at h1
    exact absurd h2 (by omega)

/-! ### The claims -/

/-- C2 (counterexample to the claim as stated): the claim quantifies
over *every* tree state, but on a reachable state that already contains
the key the first `insert` of the pair returns `false`, not `true`. -/
theorem claim_C2_counterexample :
    Reachable 1 ((cashew_set.init.insert 1 5).1) ∧
    (((cashew_set.init.insert 1 5).1).insert 1 5).2 = .ok false := by
  constructor
  · exact Reachable.ins _ _ Reachable.init
  · rw [insert_eval_first]
    have h := @insert_ok_nosplit 1 ⟨.mk [5] none, 1, 1⟩ 5 1 (.mk [5] none)
      ⟨none, none, .duplicateFound⟩ tryInsert_eval_dup (by decide)
    rw [h]
    rfl

/-- C2 (amended): on a well-formed tree state that does not already
contain `k` and whose `int8_t` depth counter cannot overflow on this
call (`treeDepth < 127`), `insert k` twice returns `true` then
`false`, `size` grows by exactly one across the pair, and the
duplicate insert is a successful no-op that leaves the state (hence
`size` and every `count`) unchanged.  (At `treeDepth = 127` a
root-splitting first insert wraps the depth counter to `-128` and the
second insert throws instead of returning `false`.) -/
theorem claim_C2 (M : Nat) (hM : 1 ≤ M) (t : cashew_set)
    (hwf : WFTree M t) (hd127 : t.treeDepth < 127) (k : Int)
    (hk : k ∉ keyList t.root) :
    (t.insert M k).2 = .ok true ∧
    ((t.insert M k).1.insert M k).2 = .ok false ∧
    ((t.insert M k).1.insert M k).1 = (t.insert M k).1 ∧
    (t.insert M k).1.size = t.size + 1 ∧
    ((t.insert M k).1.insert M k).1.size = (t.insert M k).1.size ∧
    ∀ k', ((t.insert M k).1.insert M k).1.count k'
      = (t.insert M k).1.count k' := by
  have h1 := insert_spec M hM t k hwf
  have hmem1 : k ∈ keyList (t.insert M k).1.root := by
    rw [h1.2.1.mem_iff, if_neg hk]
    exact List.mem_cons_self k _
  have hwf1 : WFTree M (t.insert M k).1 := h1.2.2.2.2.2 hd127
  have h2 := insert_spec M hM (t.insert M k).1 k hwf1
  have hid : ((t.insert M k).1.insert M k).1 = (t.insert M k).1 :=
    h2.2.2.1 hmem1
  refine ⟨?_, ?_, hid, ?_, by rw [hid], fun k' => by rw [hid]⟩
  · rw [h1.1]
    simp [hk]
  · rw [h2.1]
    simp [hmem1]
  · show (t.insert M k).1.treeEltCount = t.treeEltCount + 1
    rw [h1.2.2.2.1, if_neg hk]

theorem claim_C2_witness :
    ((1 : Nat) ≤ 1 ∧ cashew_set.init.treeDepth < 127 ∧
      (5 : Int) ∉ keyList cashew_set.init.root) ∧
    ((cashew_set.init.insert 1 5).2 = .ok true ∧
     ((cashew_set.init.insert 1 5).1.insert 1 5).2 = .ok false ∧
     ((cashew_set.init.insert 1 5).1.insert 1 5).1
        = (cashew_set.init.insert 1 5).1 ∧
     (cashew_set.init.insert 1 5).1.size = cashew_set.init.size + 1 ∧
     ((cashew_set.init.insert 1 5).1.insert 1 5).1.size
        = (cashew_set.init.insert 1 5).1.size ∧
     ∀ k', ((cashew_set.init.insert 1 5).1.insert 1 5).1.count k'
        = (cashew_set.init.insert 1 5).1.count k') :=
  ⟨⟨by decide, by decide, by simp [cashew_set.init]⟩,
    claim_C2 1 (by decide) cashew_set.init (WFTree_init 1) (by decide) 5
      (by simp [cashew_set.init])⟩

/-- `splitEltsInto` as the specification's words describe it: the
not-less elements are *appended after* `that`'s pre-existing elements,
which are preserved. -/
def splitEltsIntoSpec (n that : CashewSetNode) (p : Int) :
    CashewSetNode × CashewSetNode :=
  (.mk (n.elts.filter (fun x => decide (x < p))) n.family,
   .mk (that.elts ++ n.elts.filter (fun x => !decide (x < p)))
     that.family)

/-- C5 (counterexample to the claim as stated): `splitEltsInto` starts
writing into `other` at index 0, so `other`'s pre-existing elements are
overwritten/destroyed, not preserved: with `other` holding `[7]` and no
not-less element arriving, `other` ends empty where the spec-modelled
behaviour keeps `[7]`. -/
theorem claim_C5_counterexample :
    ((CashewSetNode.mk [5] none).splitEltsInto (.mk [7] none) 10).2.elts
      = [] ∧
    (splitEltsIntoSpec (.mk [5] none) (.mk [7] none) 10).2.elts
      = [7] := by
  constructor
  · rw [splitEltsInto_eq]
    simp
  · simp [splitEltsIntoSpec]

/-- C5 (amended): `splitEltsInto other p` keeps in this node exactly
its elements less than `p`, in their original relative order, and
*replaces* `other`'s elements with this node's not-less elements (also
in order); `other`'s pre-existing elements are destroyed, not
preserved. -/
theorem claim_C5 (n that : CashewSetNode) (p : Int) :
    n.splitEltsInto that p =
      (.mk (n.elts.filter (fun x => decide (x < p))) n.family,
       .mk (n.elts.filter (fun x => !decide (x < p))) that.family) :=
  splitEltsInto_eq n that p

/-- C6: failure atomicity by discard.  If `insert` re-signals any
failure, the tree it leaves behind is the cleared (default-constructed)
one: `size` is 0, `count` is 0 on every key, the depth is reset to 1,
and the tree is well-formed, hence usable — a subsequent insert on it
succeeds. -/
theorem claim_C6 (M : Nat) (t : cashew_set) (key : Int) (e : Err)
    (herr : (t.insert M key).2 = .error e) :
    (t.insert M key).1 = cashew_set.init ∧
    (t.insert M key).1.size = 0 ∧
    (∀ k, (t.insert M key).1.count k = 0) ∧
    (t.insert M key).1.treeDepth = 1 ∧
    WFTree M (t.insert M key).1 ∧
    (1 ≤ M → ∀ k', ((t.insert M key).1.insert M k').2 = .ok true) := by
  have h := insert_error M t key e herr
  rw [h]
  refine ⟨rfl, rfl, ?_, rfl, WFTree_init M, ?_⟩
  · intro k
    exact countRecursive_empty k
  · intro hM k'
    have h2 := (insert_spec M hM cashew_set.init k' (WFTree_init M)).1
    rw [h2]
    simp [cashew_set.init]

theorem claim_C6_witness :
    (((⟨.mk [0, 1] none, 1, 2⟩ : cashew_set).insert 1 5).2
        = .error .eltCountTooLarge) ∧
    (((⟨.mk [0, 1] none, 1, 2⟩ : cashew_set).insert 1 5).1
        = cashew_set.init ∧
      ((⟨.mk [0, 1] none, 1, 2⟩ : cashew_set).insert 1 5).1.size = 0 ∧
      (∀ k, ((⟨.mk [0, 1] none, 1, 2⟩ : cashew_set).insert 1 5).1.count k
        = 0) ∧
      ((⟨.mk [0, 1] none, 1, 2⟩ : cashew_set).insert 1 5).1.treeDepth
        = 1 ∧
      WFTree 1 ((⟨.mk [0, 1] none, 1, 2⟩ : cashew_set).insert 1 5).1 ∧
      (1 ≤ 1 → ∀ k',
        (((⟨.mk [0, 1] none, 1, 2⟩ : cashew_set).insert 1 5).1.insert 1
            k').2 = .ok true)) :=
  ⟨insert_eval_err,
    claim_C6 1 ⟨.mk [0, 1] none, 1, 2⟩ 5 .eltCountTooLarge
      insert_eval_err⟩

/-- C8: capacity arithmetic.  With key size `S`, pointer size `P`
(only 4 or 8 are accepted), cache line `L = 64` and a one-byte count
field, `elt_count_max = (L - P - 1) / S` and
`children_per_node = elt_count_max + 1`; the capacity (plus one) fits
the `int8_t` count field, and the laid-out node occupies exactly 64
bytes for every natural scalar key size — checked here for
`S = A ∈ {1,2,4,8,16,32}` and both pointer widths.  For the test's
`int32_t` keys on a 64-bit machine the capacity is 13 elements and 14
children. -/
theorem claim_C8 :
    (∀ S ∈ [1, 2, 4, 8, 16, 32], ∀ P ∈ [4, 8],
      supportedPtrWidth P ∧
      elt_count_max S P = (cache_line_nbytes - P - 1) / S ∧
      children_per_node S P = elt_count_max S P + 1 ∧
      elt_count_max S P + 1 ≤ 127 ∧
      sizeofNode S S P = cache_line_nbytes) ∧
    ¬supportedPtrWidth 2 ∧
    elt_count_max 4 8 = 13 ∧ children_per_node 4 8 = 14 := by
  decide

/-- C9: search indexing safety.  On any node satisfying the structural
invariant, the `lessCount` computed by `countRecursive` is at most the
node's element count, hence strictly below the `elt_count_max + 1`
length of the child array, and the descended-into child slot holds a
well-formed node — so the child access is in bounds and the search is
total. -/
theorem claim_C9 (M D d : Nat) (node : CashewSetNode) (key : Int)
    (hwf : WFNode M D d node) :
    countLess node.elts key ≤ node.elt_count ∧
    node.elt_count < M + 1 ∧
    ∀ ch, node.family = some ch →
      countLess node.elts key < ch.length ∧
      WFNode M D (d + 1) (ch.getD (countLess node.elts key) .empty) := by
  refine ⟨countLess_le_length _ _, by
    have := hwf.elt_count_le
    omega, ?_⟩
  intro ch hch
  cases hwf with
  | leaf elts d hlen hd => simp at hch
  | branch elts ch' d hlen hd hch' hwf hord htail =>
    simp only [CashewSetNode.family_mk, Option.some.injEq] at hch
    subst hch
    have hlc := countLess_le_length elts key
    refine ⟨by simp only [CashewSetNode.elts_mk]; omega, ?_⟩
    simp only [CashewSetNode.elts_mk]
    exact hwf _ hlc

theorem claim_C9_witness :
    (WFNode 1 2 1 (.mk [3] (some [.empty, .empty]))) ∧
    (countLess (CashewSetNode.mk [3]
        (some [CashewSetNode.empty, .empty])).elts 5
      ≤ (CashewSetNode.mk [3] (some [CashewSetNode.empty, .empty])).elt_count ∧
    (CashewSetNode.mk [3] (some [CashewSetNode.empty, .empty])).elt_count
      < 1 + 1 ∧
    ∀ ch, (CashewSetNode.mk [3]
        (some [CashewSetNode.empty, .empty])).family = some ch →
      countLess (CashewSetNode.mk [3]
          (some [CashewSetNode.empty, .empty])).elts 5 < ch.length ∧
      WFNode 1 2 (1 + 1) (ch.getD (countLess (CashewSetNode.mk [3]
          (some [CashewSetNode.empty, .empty])).elts 5) .empty)) :=
  ⟨wf_branch_example,
    claim_C9 1 2 1 (.mk [3] (some [.empty, .empty])) 5 wf_branch_example⟩

/-- C3 (counterexample to the claim as stated): at a spacious non-leaf
node whose child-level recursion returns `done` (not `familySplit`),
the node's own element list is left unchanged — the key is *not*
appended to it via `addElt` (the key already went into the child). -/
theorem claim_C3_counterexample :
    tryInsert 2 2 0 (.mk [10] (some [.empty, .empty, .empty])) 1 5
      = .ok (1, .mk [10] (some [.mk [5] none, .empty, .empty]),
          ⟨none, none, .done⟩) ∧
    (CashewSetNode.mk [10]
        (some [.mk [5] none, .empty, .empty])).elts
      ≠ ((CashewSetNode.mk [10]
          (some [.mk [5] none, .empty, .empty])).addElt 5).elts := by
  constructor
  · rw [tryInsert_unfold_ok (show checkBugs 2 2
        (.mk [10] (some [.empty, .empty, .empty])) 1 = .ok () from rfl),
      if_neg (by decide), if_pos (by decide)]
    have hlc : countLess (CashewSetNode.mk [10]
        (some [CashewSetNode.empty, .empty, .empty])).elts 5 = 0 := rfl
    rw [hlc]
    have h := @insertSpacious_rec_early 2 2 0 1 [10]
      [.empty, .empty, .empty] 5 0 1 (.mk [5] none)
      ⟨none, none, .done⟩ (by decide) tryInsert_eval_leaf2 (by decide)
    rw [h]
    rfl
  · decide

/-- C3 (amended): in the spacious case at a non-leaf node, the key is
appended to the node's own elements via `addElt` (with outcome `done`)
only when the child-level recursion returned `familySplit`; when the
recursion returned `done` or `duplicateFound`, the node's own element
list is left unchanged (only the descended-into child is replaced) and
the child's result is propagated unchanged. -/
theorem claim_C3 (M D cnt d : Nat) (elts : List Int)
    (ch : List CashewSetNode) (key : Int) (lc cnt' : Nat)
    (c' : CashewSetNode) (res : TryInsertResult) (h : d < D)
    (heq : tryInsert M D cnt (ch.getD lc .empty) (d + 1) key
      = .ok (cnt', c', res)) :
    (res.status ≠ .familySplit →
      insertSpacious M D cnt (.mk elts (some ch)) d key lc
        = .ok (cnt', .mk elts (some (ch.set lc c')), res)) ∧
    (res.status = .familySplit →
      ∃ fam3, insertSpacious M D cnt (.mk elts (some ch)) d key lc
        = .ok (cnt' + 1,
            (CashewSetNode.mk elts (some fam3)).addElt key,
            ⟨none, none, .done⟩)) := by
  constructor
  · intro h'
    exact insertSpacious_rec_early h heq h'
  · intro h'
    exact ⟨_, insertSpacious_rec_split h heq h'⟩

theorem claim_C3_witness :
    ((1 : Nat) < 2) ∧
    (((⟨none, none, .done⟩ : TryInsertResult).status ≠ .familySplit →
      insertSpacious 2 2 0 (.mk [10] (some [.empty, .empty, .empty]))
          1 5 0
        = .ok (1, .mk [10]
            (some ([CashewSetNode.empty, .empty, .empty].set 0
              (.mk [5] none))),
            ⟨none, none, .done⟩)) ∧
     ((⟨none, none, .done⟩ : TryInsertResult).status = .familySplit →
      ∃ fam3, insertSpacious 2 2 0
          (.mk [10] (some [.empty, .empty, .empty])) 1 5 0
        = .ok (1 + 1, (CashewSetNode.mk [10] (some fam3)).addElt 5,
            ⟨none, none, .done⟩))) :=
  ⟨by decide, claim_C3 2 2 0 1 [10] [.empty, .empty, .empty] 5 0 1
    (.mk [5] none) ⟨none, none, .done⟩ (by decide) tryInsert_eval_leaf2⟩

/-- A concrete well-formed one-element tree at capacity `M = 1`. -/
theorem wf_t1_example : WFTree 1 ⟨.mk [1] none, 1, 1⟩ :=
  ⟨WFNode.leaf [1] 1 (by decide) rfl, by simp, by decide, by decide⟩

/-- A complete, maximally-full search tree of height `n` centred at
`c`: every node holds exactly one element (so it is full at capacity
`M = 1`) and its two active children cover `(c - 2^n, c)` and
`(c, c + 2^n)`.  As a term the two children of a node share their
subterm, so the value stays small even for large `n`. -/
def fullTree : Nat → Int → CashewSetNode
  | 0, c => .mk [c] none
  | n + 1, c => .mk [c]
      (some [fullTree n (c - 2 ^ n), fullTree n (c + 2 ^ n)])

theorem fullTree_keys_bound : ∀ (n : Nat) (c x : Int),
    x ∈ keyList (fullTree n c) → c - 2 ^ n < x ∧ x < c + 2 ^ n := by
  intro n
  induction n with
  | zero =>
    intro c x hx
    rw [fullTree] at hx
    simp only [keyList_mk_none, List.mem_singleton] at hx
    have h0 : (2 : Int) ^ 0 = 1 := by norm_num
    omega
  | succ n ih =>
    intro c x hx
    have hp : (0 : Int) < 2 ^ n := pow_pos (by norm_num) n
    have h2 : (2 : Int) ^ (n + 1) = 2 ^ n + 2 ^ n := by ring
    rw [fullTree, keyList_mk_some] at hx
    rcases List.mem_append.mp hx with h | h
    · have hxc : x = c := by simpa using h
      omega
    · simp only [keyListFam_cons, keyListFam_nil, List.append_nil] at h
      rcases List.mem_append.mp h with h | h
      · have := ih (c - 2 ^ n) x h
        omega
      · have := ih (c + 2 ^ n) x h
        omega

theorem fullTree_wf (D : Nat) : ∀ (n d : Nat) (c : Int), d + n = D →
    WFNode 1 D d (fullTree n c) := by
  intro n
  induction n with
  | zero =>
    intro d c hd
    rw [fullTree]
    exact WFNode.leaf [c] d (by simp) (by omega)
  | succ n ih =>
    intro d c hd
    have hp : (0 : Int) < 2 ^ n := pow_pos (by norm_num) n
    rw [fullTree]
    refine WFNode.branch [c] _ d (by simp) (by omega) rfl ?_ ?_ ?_
    · intro i hi
      simp only [List.length_cons, List.length_nil] at hi
      match i, hi with
      | 0, _ => exact ih (d + 1) _ (by omega)
      | 1, _ => exact ih (d + 1) _ (by omega)
    · intro i hi x hx
      simp only [List.length_cons, List.length_nil] at hi
      match i, hi with
      | 0, _ =>
        rw [getD_cons_zero] at hx
        have hb := fullTree_keys_bound n (c - 2 ^ n) x hx
        have hxc : x < c := by omega
        constructor
        · simp only [countLess, List.countP_cons, List.countP_nil]
          simp only [decide_eq_true_eq]
          rw [if_neg (show ¬c < x by omega)]
        · simp only [List.mem_singleton]
          omega
      | 1, _ =>
        rw [getD_cons_succ, getD_cons_zero] at hx
        have hb := fullTree_keys_bound n (c + 2 ^ n) x hx
        have hxc : c < x := by omega
        constructor
        · simp only [countLess, List.countP_cons, List.countP_nil]
          simp only [decide_eq_true_eq]
          rw [if_pos (show c < x by omega)]
        · simp only [List.mem_singleton]
          omega
    · intro i h1 h2
      simp only [List.length_cons, List.length_nil] at h1
      exact absurd h2 (by omega)

theorem fullTree_size : ∀ (n : Nat) (c : Int),
    (keyList (fullTree n c)).length = 2 ^ (n + 1) - 1 := by
  intro n
  induction n with
  | zero =>
    intro c
    rw [fullTree]
    norm_num
  | succ n ih =>
    intro c
    rw [fullTree]
    simp only [keyList_mk_some, keyListFam_cons, keyListFam_nil,
      List.append_nil, List.length_append, List.length_cons,
      List.length_nil]
    rw [ih, ih]
    have h1 : 1 ≤ 2 ^ (n + 1) := Nat.one_le_two_pow
    have h2 : 2 ^ (n + 1 + 1) = 2 ^ (n + 1) + 2 ^ (n + 1) := by ring
    omega

/-- Inserting a key below every stored key into a maximally-full tree
splits every node on the (leftmost) search path, so the root itself
reports `familySplit`. -/
theorem fullTree_split (D : Nat) : ∀ (n d cnt : Nat) (c k : Int),
    d + n = D → k + 2 ^ n ≤ c →
    ∃ f0 f1, tryInsert 1 D cnt (fullTree n c) d k
      = .ok (cnt, .mk [c] none, ⟨f0, f1, .familySplit⟩) := by
  intro n
  induction n with
  | zero =>
    intro d cnt c k hd hk
    have hdD : d = D := by omega
    subst hdD
    have h0 : (2 : Int) ^ 0 = 1 := by norm_num
    rw [fullTree]
    rw [tryInsert_unfold_ok (show checkBugs 1 d (.mk [c] none) d
      = .ok () from by simp [checkBugs])]
    rw [if_neg (by
        simp only [CashewSetNode.elts_mk, List.mem_singleton]
        omega),
      if_neg (by simp)]
    rw [insertFull.eq_def, if_pos rfl]
    exact ⟨none, none, rfl⟩
  | succ n ih =>
    intro d cnt c k hd hk
    have hdD : d < D := by omega
    have hp : (0 : Int) < 2 ^ n := pow_pos (by norm_num) n
    have h2 : (2 : Int) ^ (n + 1) = 2 ^ n + 2 ^ n := by ring
    rw [fullTree]
    rw [tryInsert_unfold_ok (show checkBugs 1 D
        (.mk [c] (some [fullTree n (c - 2 ^ n),
          fullTree n (c + 2 ^ n)])) d = .ok () from by
      simp only [checkBugs, CashewSetNode.elt_count_mk,
        CashewSetNode.family_mk, gt_iff_lt]
      rw [if_neg (by simp), if_neg (by omega), if_neg (by simp; omega)])]
    rw [if_neg (by
        simp only [CashewSetNode.elts_mk, List.mem_singleton]
        omega),
      if_neg (by simp)]
    have hlc : countLess (CashewSetNode.mk [c]
        (some [fullTree n (c - 2 ^ n),
          fullTree n (c + 2 ^ n)])).elts k = 0 := by
      simp only [CashewSetNode.elts_mk, countLess, List.countP_cons,
        List.countP_nil]
      simp [show ¬c < k by omega]
    rw [hlc]
    obtain ⟨f0, f1, hrec⟩ := ih (d + 1) cnt (c - 2 ^ n) k (by omega)
      (by omega)
    rw [insertFull_rec_split hdD (show tryInsert 1 D cnt
        ([fullTree n (c - 2 ^ n), fullTree n (c + 2 ^ n)].getD 0 .empty)
        (d + 1) k
      = .ok (cnt, .mk [c - 2 ^ n] none, ⟨f0, f1, .familySplit⟩)
      from hrec) rfl]
    exact ⟨_, _, rfl⟩

/-- C4 (counterexample to the claim as stated): at the maximal
`int8_t` depth 127 a root split does not increment `treeDepth` — the
`treeDepth++` wraps the counter to `-128`.  `fullTree 126 0` is a
well-formed tree of depth 127 whose every node on the search path of
`-(2^126)` is full, so inserting that key makes `tryInsert` on the
root report `familySplit`; the state `insert` then builds carries
`treeDepth = -128`, not `127 + 1`. -/
theorem claim_C4_counterexample :
    WFTree 1 ⟨fullTree 126 0, 127, 2 ^ 127 - 1⟩ ∧
    (∃ f0 f1, tryInsert 1 (127 : Int).toNat (2 ^ 127 - 1)
        (fullTree 126 0) 1 (-(2 ^ 126))
      = .ok (2 ^ 127 - 1, .mk [0] none, ⟨f0, f1, .familySplit⟩)) ∧
    ((⟨fullTree 126 0, 127, 2 ^ 127 - 1⟩ : cashew_set).insert 1
        (-(2 ^ 126))).1.treeDepth = -128 ∧
    ((⟨fullTree 126 0, 127, 2 ^ 127 - 1⟩ : cashew_set).insert 1
        (-(2 ^ 126))).1.treeDepth ≠ (127 : Int) + 1 := by
  obtain ⟨f0, f1, hsplit⟩ := fullTree_split 127 126 1 (2 ^ 127 - 1) 0
    (-(2 ^ 126)) (by norm_num) (by omega)
  have h := @insert_ok_split 1 ⟨fullTree 126 0, 127, 2 ^ 127 - 1⟩
    (-(2 ^ 126)) (2 ^ 127 - 1) (.mk [0] none) ⟨f0, f1, .familySplit⟩
    hsplit rfl
  refine ⟨⟨fullTree_wf 127 126 1 0 (by norm_num), ?_, by decide,
      by decide⟩, ⟨f0, f1, hsplit⟩, ?_, ?_⟩
  · show (2 ^ 127 - 1 : Nat) = (keyList (fullTree 126 0)).length
    rw [fullTree_size]
  · rw [h]
    show int8_wrap ((127 : Int) + 1) = -128
    decide
  · rw [h]
    show int8_wrap ((127 : Int) + 1) ≠ (127 : Int) + 1
    decide

/-- C4 (amended): root split.  When `tryInsert` on the root of a
well-formed tree reports `familySplit` and the `int8_t` depth counter
cannot overflow (`treeDepth < 127`), `insert` builds a fresh children
array whose two leading slots carry the two returned families,
partitions the root's former elements into those two children around
the inserted key via `splitElts`, leaves the root holding exactly the
one inserted key, increments `treeDepth` and the size by one, and
returns `true`; moreover (on well-formed states) no other public
operation ever increases `treeDepth`. -/
theorem claim_C4 (M : Nat) (hM : 1 ≤ M) (t : cashew_set) (key : Int)
    (hwf : WFTree M t) (hd127 : t.treeDepth < 127) (cnt' : Nat)
    (root' : CashewSetNode) (res : TryInsertResult)
    (heq : tryInsert M t.treeDepth.toNat t.treeEltCount t.root 1 key
      = .ok (cnt', root', res))
    (hres : res.status = .familySplit) :
    t.insert M key = (⟨.mk ([] ++ [key]) (some
        (CashewSetNode.mk (root'.elts.filter (fun x => decide (x < key)))
            res.family0 ::
         CashewSetNode.mk (root'.elts.filter (fun x => !decide (x < key)))
            res.family1 ::
         List.replicate (M - 1) CashewSetNode.empty)),
      t.treeDepth + 1, cnt' + 1⟩, .ok true) ∧
    root'.elts = t.root.elts ∧
    cnt' = t.treeEltCount ∧
    ∀ (t' : cashew_set) (op : Op), WFTree M t' →
      t'.treeDepth < (applyOp M t' op).treeDepth →
      ∃ k, op = Op.ins k ∧
        (applyOp M t' op).treeDepth = t'.treeDepth + 1 ∧
        ∃ cnt'' root'' res',
          tryInsert M t'.treeDepth.toNat t'.treeEltCount t'.root 1 k
            = .ok (cnt'', root'', res') ∧
          res'.status = InsStatus.familySplit := by
  have hD1 : 1 ≤ t.treeDepth := hwf.2.2.1
  obtain ⟨c2, n2, r2, heq2, hcase⟩ :=
    tryInsert_spec M t.treeDepth.toNat t.treeDepth.toNat 1
      t.treeEltCount t.root key (by omega) hwf.1
  rw [heq] at heq2
  simp only [Except.ok.injEq, Prod.mk.injEq] at heq2
  obtain ⟨hc2, hn2, hr2⟩ := heq2
  subst hc2 hn2 hr2
  have hsplit : root'.elts = t.root.elts ∧ cnt' = t.treeEltCount := by
    rcases hcase with ⟨_, hst, _, _⟩ | ⟨_, hst, _, _, _⟩ |
      ⟨_, _, hcnt, helts, _, _, _, _, _⟩
    · rw [hres] at hst
      simp at hst
    · rw [hres] at hst
      simp at hst
    · exact ⟨helts, hcnt⟩
  refine ⟨?_, hsplit.1, hsplit.2, ?_⟩
  · rw [insert_ok_split heq hres, make_family_set01 M _ _ hM,
      int8_wrap_eq_self (by omega) (by omega)]
  · intro t' op hwf' hlt
    cases op with
    | qry k => simp [applyOp] at hlt
    | clr =>
      have h1 : 1 ≤ t'.treeDepth := hwf'.2.2.1
      simp [applyOp, cashew_set.clear] at hlt
      omega
    | ins k =>
      have h1 : 1 ≤ t'.treeDepth := hwf'.2.2.1
      have h127 : t'.treeDepth ≤ 127 := hwf'.2.2.2
      refine ⟨k, rfl, ?_⟩
      cases htc : tryInsert M t'.treeDepth.toNat t'.treeEltCount
        t'.root 1 k with
      | error e =>
        have herr : t'.insert M k = (t'.clear, .error e) := by
          unfold cashew_set.insert
          rw [htc]
        simp only [applyOp] at hlt
        rw [herr] at hlt
        simp [cashew_set.clear] at hlt
        omega
      | ok v =>
        obtain ⟨cnt'', root'', res'⟩ := v
        by_cases hs : res'.status = .familySplit
        · by_cases hend : t'.treeDepth = 127
          · simp only [applyOp] at hlt
            rw [insert_ok_split htc hs] at hlt
            rw [hend] at hlt
            rw [show int8_wrap ((127 : Int) + 1) = -128 from by decide]
              at hlt
            simp at hlt
          · refine ⟨?_, ⟨cnt'', root'', res', rfl, hs⟩⟩
            simp only [applyOp]
            rw [insert_ok_split htc hs]
            exact int8_wrap_eq_self (by omega) (by omega)
        · have hns := insert_ok_nosplit htc hs
          simp only [applyOp] at hlt
          rw [hns] at hlt
          simp at hlt

theorem claim_C4_witness :
    ((1 : Nat) ≤ 1 ∧ WFTree 1 ⟨.mk [1] none, 1, 1⟩ ∧
      (1 : Int) < 127 ∧
      tryInsert 1 1 1 (.mk [1] none) 1 2
        = .ok (1, .mk [1] none, ⟨none, none, .familySplit⟩) ∧
      (⟨none, none, .familySplit⟩ : TryInsertResult).status
        = .familySplit) ∧
    ((⟨.mk [1] none, 1, 1⟩ : cashew_set).insert 1 2
      = (⟨.mk ([] ++ [2]) (some
          (CashewSetNode.mk ([1].filter (fun x => decide (x < 2)))
              none ::
           CashewSetNode.mk ([1].filter (fun x => !decide (x < 2)))
              none ::
           List.replicate (1 - 1) CashewSetNode.empty)),
        (1 : Int) + 1, 1 + 1⟩, .ok true) ∧
      ([1] : List Int) = [1] ∧
      (1 : Nat) = 1 ∧
      ∀ (t' : cashew_set) (op : Op), WFTree 1 t' →
        t'.treeDepth < (applyOp 1 t' op).treeDepth →
        ∃ k, op = Op.ins k ∧
          (applyOp 1 t' op).treeDepth = t'.treeDepth + 1 ∧
          ∃ cnt'' root'' res',
            tryInsert 1 t'.treeDepth.toNat t'.treeEltCount t'.root 1 k
              = .ok (cnt'', root'', res') ∧
            res'.status = InsStatus.familySplit) :=
  ⟨⟨by decide, wf_t1_example, by decide, tryInsert_eval_fullroot, rfl⟩,
    claim_C4 1 (by decide) ⟨.mk [1] none, 1, 1⟩ 2 wf_t1_example
      (by decide) 1 (.mk [1] none) ⟨none, none, .familySplit⟩
      tryInsert_eval_fullroot rfl⟩

/-- C10: the `addElt` precondition is discharged.  Under the spacious
guard (`elt_count < elt_count_max`) the in-place append stays within
the element buffer; in the root-split path `splitElts` first leaves the
root with zero elements, so its `addElt` produces exactly one element;
and consequently, after `insert` on any well-formed tree every active
node still respects the capacity bound — the unchecked append never
writes past a node's element buffer. -/
theorem claim_C10 (M : Nat) (hM : 1 ≤ M) (t : cashew_set) (key : Int)
    (hwf : WFTree M t) :
    (∀ n : CashewSetNode, n.elt_count < M →
      (n.addElt key).elt_count ≤ M) ∧
    (∀ n c0 c1 : CashewSetNode,
      (CashewSetNode.splitElts n c0 c1 key).1.elts = [] ∧
      ((CashewSetNode.splitElts n c0 c1 key).1.addElt key).elt_count
        = 1) ∧
    (∀ m d, SubNode (t.insert M key).1.root 1 m d →
      m.elt_count ≤ M) := by
  refine ⟨?_, ?_, ?_⟩
  · intro n hn
    simp only [CashewSetNode.addElt, CashewSetNode.elt_count,
      CashewSetNode.elts_mk, List.length_append, List.length_cons,
      List.length_nil]
    simp only [CashewSetNode.elt_count] at hn
    omega
  · intro n c0 c1
    rw [splitElts_eq]
    exact ⟨by simp, by simp [CashewSetNode.addElt]⟩
  · intro m d hs
    obtain ⟨D', hwfD'⟩ := (insert_spec M hM t key hwf).2.2.2.2.1
    exact (WFNode.sub hs hwfD').elt_count_le

theorem claim_C10_witness :
    ((1 : Nat) ≤ 1) ∧
    ((∀ n : CashewSetNode, n.elt_count < 1 →
        (n.addElt 0).elt_count ≤ 1) ∧
     (∀ n c0 c1 : CashewSetNode,
        (CashewSetNode.splitElts n c0 c1 0).1.elts = [] ∧
        ((CashewSetNode.splitElts n c0 c1 0).1.addElt 0).elt_count
          = 1) ∧
     (∀ m d, SubNode (cashew_set.init.insert 1 0).1.root 1 m d →
        m.elt_count ≤ 1)) :=
  ⟨by decide, claim_C10 1 (by decide) cashew_set.init 0 (WFTree_init 1)⟩

end cashew
